import Mathlib

set_option maxHeartbeats 1000000

/-
Verification of the networth-tracker ledger engine.

The development shallowly embeds the JavaScript source of the repository:

  * date normalisation (`parseDateParts`, `toIsoDate`, the `Date.UTC`
    timestamp at integer arguments) from `src/client/src/pages/History.jsx`;
  * the long-format CSV parser `parseCsvLong` and the helpers
    `sanitizeCategory`, `normalizeType`, `categoryType` from the same file;
  * the account-metadata resolution of the batched CSV import
    (`desiredMeta` block of the import handler);
  * the per-record balance import loop with its imported/failed counters and
    status line;
  * the y-axis scaler `computeY` and the per-date category rollup
    (`chartData`) from `src/client/src/pages/Charts.jsx`;
  * the server's `GET /timeseries` aggregation and `POST /balances`
    upsert (account auto-creation + balance upsert) from the Express server.

JavaScript strings are modelled as `List Char`, JavaScript finite numbers as
`ℚ` (number arithmetic is modelled exactly; a missing/NaN value is `none` of
an `Option`).  The builtin `Number(...)` conversion is modelled by `jsNumber`
on decimal numeric strings (optional sign, digits, optional fraction); other
numeric notations (hex, exponent) do not occur in the ledger formats and are
mapped to `none` (NaN).
-/

/-- JavaScript strings are modelled as lists of characters. -/
abbrev JStr := List Char

/-- Whitespace recognised by the model of `String.prototype.trim`. -/
def isWs (c : Char) : Bool := c = ' ' || c = '\t' || c = '\n' || c = '\r'

/-- Model of `s.trim()`: drop leading and trailing whitespace. -/
def trimStr (s : JStr) : JStr :=
  ((s.dropWhile isWs).reverse.dropWhile isWs).reverse

/-- Model of `s.split(sep)` for a single-character separator: JavaScript
`"a--b".split("-") = ["a","","b"]`, and `"".split("-") = [""]`. -/
def jsSplit (sep : Char) : JStr → List JStr
  | [] => [[]]
  | c :: rest =>
    match jsSplit sep rest with
    | [] => [[]]
    | g :: gs => if c = sep then [] :: g :: gs else (c :: g) :: gs

/-- Model of `s.toLowerCase()` (ASCII, which is all the ledger uses). -/
def toLowerStr (s : JStr) : JStr := s.map Char.toLower

/-- Model of `s.padStart(2, "0")`. -/
def pad2 (s : JStr) : JStr :=
  if 2 ≤ s.length then s else List.replicate (2 - s.length) '0' ++ s

/-- Decimal digit character test. -/
def isDigitCh (c : Char) : Bool := '0' ≤ c && c ≤ '9'

/-- The decimal digit character for `n % 10`. -/
def digitChar (n : ℕ) : Char :=
  if n = 0 then '0' else if n = 1 then '1' else if n = 2 then '2'
  else if n = 3 then '3' else if n = 4 then '4' else if n = 5 then '5'
  else if n = 6 then '6' else if n = 7 then '7' else if n = 8 then '8' else '9'

/-- Fuel-driven digit renderer (structural recursion so that concrete
values reduce in the kernel; the fuel never runs out when it starts at
`n`). -/
def natDigitsF : ℕ → ℕ → JStr
  | 0, n => [digitChar n]
  | fuel + 1, n =>
    if n < 10 then [digitChar n]
    else natDigitsF fuel (n / 10) ++ [digitChar (n % 10)]

/-- Decimal rendering of a natural number (model of JS `String(n)`). -/
def natDigits (n : ℕ) : JStr := natDigitsF n n

/-- Numeric value of a digit string (the value computed by `Number` on an
all-digits string). -/
def digitsVal (s : JStr) : ℕ :=
  s.foldl (fun a c => 10 * a + (c.toNat - 48)) 0

theorem jsSplit_ne_nil (sep : Char) (s : JStr) : jsSplit sep s ≠ [] := by
  cases s with
  | nil => simp [jsSplit]
  | cons c rest =>
    simp only [jsSplit]
    split
    · simp
    · split <;> simp

theorem jsSplit_cons_sep (sep : Char) (s : JStr) :
    jsSplit sep (sep :: s) = [] :: jsSplit sep s := by
  simp only [jsSplit]
  rcases h : jsSplit sep s with _ | ⟨g, gs⟩
  · exact absurd h (jsSplit_ne_nil sep s)
  · simp

theorem jsSplit_cons_ne (sep c : Char) (s : JStr) (hc : c ≠ sep) :
    ∃ g gs, jsSplit sep s = g :: gs ∧ jsSplit sep (c :: s) = (c :: g) :: gs := by
  rcases h : jsSplit sep s with _ | ⟨g, gs⟩
  · exact absurd h (jsSplit_ne_nil sep s)
  · refine ⟨g, gs, rfl, ?_⟩
    simp only [jsSplit, h]
    simp [hc]

/-- Splitting a string that starts with a separator-free prefix followed by a
separator yields that prefix as the first group. -/
theorem jsSplit_append (sep : Char) (xs ys : JStr)
    (hxs : ∀ c ∈ xs, c ≠ sep) :
    jsSplit sep (xs ++ sep :: ys) = xs :: jsSplit sep ys := by
  induction xs with
  | nil => simpa using jsSplit_cons_sep sep ys
  | cons c rest ih =>
    have hc : c ≠ sep := hxs c (by simp)
    have hrest : ∀ x ∈ rest, x ≠ sep := fun x hx => hxs x (by simp [hx])
    obtain ⟨g, gs, hg, hcons⟩ :=
      jsSplit_cons_ne sep c (rest ++ sep :: ys) hc
    rw [ih hrest] at hg
    cases hg
    simpa using hcons

/-- Splitting a separator-free string yields a single group. -/
theorem jsSplit_no_sep (sep : Char) (s : JStr) (h : ∀ c ∈ s, c ≠ sep) :
    jsSplit sep s = [s] := by
  induction s with
  | nil => simp [jsSplit]
  | cons c rest ih =>
    have hc : c ≠ sep := h c (by simp)
    obtain ⟨g, gs, hg, hcons⟩ := jsSplit_cons_ne sep c rest hc
    rw [ih (fun x hx => h x (by simp [hx]))] at hg
    cases hg
    simpa using hcons

theorem dropWhile_eq_self_of_all {p : Char → Bool} {s : JStr}
    (h : ∀ c ∈ s, p c = false) : s.dropWhile p = s := by
  cases s with
  | nil => rfl
  | cons c rest => simp [List.dropWhile, h c (by simp)]

/-- `trim` is the identity on whitespace-free strings. -/
theorem trimStr_eq_self (s : JStr) (h : ∀ c ∈ s, isWs c = false) :
    trimStr s = s := by
  unfold trimStr
  rw [dropWhile_eq_self_of_all h,
      dropWhile_eq_self_of_all (fun c hc => h c (List.mem_reverse.mp hc)),
      List.reverse_reverse]

theorem head?_dropWhile {p : Char → Bool} {l : JStr} {c : Char}
    (h : (l.dropWhile p).head? = some c) : p c = false := by
  induction l with
  | nil => simp at h
  | cons a l ih =>
    by_cases hp : p a
    · rw [List.dropWhile_cons_of_pos hp] at h; exact ih h
    · rw [List.dropWhile_cons_of_neg hp] at h
      simp at h
      subst h
      simpa using hp

theorem dropWhile_eq_self_of_head {p : Char → Bool} {l : JStr}
    (h : ∀ c, l.head? = some c → p c = false) : l.dropWhile p = l := by
  cases l with
  | nil => rfl
  | cons a l => rw [List.dropWhile_cons_of_neg (by simp [h a rfl])]

theorem getLast?_dropWhile {p : Char → Bool} (l : JStr)
    (h : l.dropWhile p ≠ []) : (l.dropWhile p).getLast? = l.getLast? := by
  induction l with
  | nil => simp at h
  | cons a l ih =>
    by_cases hp : p a
    · rw [List.dropWhile_cons_of_pos hp] at h ⊢
      rcases l with _ | ⟨b, l'⟩
      · simp at h
      · rw [ih h, List.getLast?_cons_cons]
    · rw [List.dropWhile_cons_of_neg hp]

/-- `trim` is idempotent. -/
theorem trimStr_idem (s : JStr) : trimStr (trimStr s) = trimStr s := by
  unfold trimStr
  generalize hA : s.dropWhile isWs = A
  generalize hB : A.reverse.dropWhile isWs = B
  rcases hBe : B with _ | ⟨b0, B'⟩
  · simp
  rw [← hBe]
  have hBne : B ≠ [] := by rw [hBe]; simp
  have h1 : B.reverse.dropWhile isWs = B.reverse := by
    apply dropWhile_eq_self_of_head
    intro c hc
    rw [List.head?_reverse] at hc
    have : B.getLast? = A.reverse.getLast? := by
      rw [← hB]; exact getLast?_dropWhile _ (hB ▸ hBne)
    rw [this, List.getLast?_reverse] at hc
    exact head?_dropWhile (p := isWs) (l := s) (by rw [hA]; exact hc)
  rw [h1, List.reverse_reverse]
  have h2 : B.dropWhile isWs = B := by
    apply dropWhile_eq_self_of_head
    intro c hc
    apply head?_dropWhile (p := isWs) (l := A.reverse)
    rw [hB]; exact hc
  rw [h2]

theorem digitChar_toNat (n : ℕ) (h : n < 10) : (digitChar n).toNat - 48 = n := by
  interval_cases n <;> decide

theorem isDigitCh_digitChar (n : ℕ) (h : n < 10) : isDigitCh (digitChar n) = true := by
  interval_cases n <;> decide

theorem natDigitsF_congr (n : ℕ) : ∀ f1 f2 : ℕ, n ≤ f1 → n ≤ f2 →
    natDigitsF f1 n = natDigitsF f2 n := by
  induction n using Nat.strong_induction_on with
  | _ n ih =>
    intro f1 f2 h1 h2
    by_cases hn : n < 10
    · rcases f1 with _ | f1 <;> rcases f2 with _ | f2 <;>
        simp [natDigitsF, hn]
    · rcases f1 with _ | f1
      · omega
      rcases f2 with _ | f2
      · omega
      simp only [natDigitsF, hn, if_false]
      rw [ih (n / 10) (Nat.div_lt_self (by omega) (by omega)) f1 f2
        (by omega) (by omega)]

theorem natDigits_eq (n : ℕ) :
    natDigits n = if n < 10 then [digitChar n]
      else natDigits (n / 10) ++ [digitChar (n % 10)] := by
  unfold natDigits
  by_cases hn : n < 10
  · rcases hn' : n with _ | m
    · simp [natDigitsF, hn]
    · rw [← hn']
      have : ∃ f, n = f + 1 := ⟨m, hn'⟩
      obtain ⟨f, rfl⟩ := this
      simp [natDigitsF, hn]
  · have : ∃ f, n = f + 1 := ⟨n - 1, by omega⟩
    obtain ⟨f, rfl⟩ := this
    simp only [natDigitsF, hn, if_false]
    rw [natDigitsF_congr (( f + 1) / 10) f ((f + 1) / 10) (by omega) (by omega)]

theorem natDigits_ne_nil (n : ℕ) : natDigits n ≠ [] := by
  rw [natDigits_eq]
  split <;> simp

theorem natDigits_all_digits (n : ℕ) : ∀ c ∈ natDigits n, isDigitCh c = true := by
  induction n using Nat.strong_induction_on with
  | _ n ih =>
    rw [natDigits_eq]
    split
    · next h => intro c hc; simp at hc; subst hc; exact isDigitCh_digitChar n h
    · next h =>
      intro c hc
      simp only [List.mem_append, List.mem_singleton] at hc
      rcases hc with hc | hc
      · exact ih (n / 10) (Nat.div_lt_self (by omega) (by omega)) c hc
      · subst hc; exact isDigitCh_digitChar (n % 10) (Nat.mod_lt _ (by omega))

theorem digitsVal_from (s : JStr) (a : ℕ) :
    s.foldl (fun a c => 10 * a + (c.toNat - 48)) a = a * 10 ^ s.length + digitsVal s := by
  induction s generalizing a with
  | nil => simp [digitsVal]
  | cons c rest ih =>
    simp only [List.foldl_cons, digitsVal, List.length_cons]
    rw [ih, ih (10 * 0 + (c.toNat - 48))]
    ring

theorem digitsVal_append_singleton (xs : JStr) (c : Char) :
    digitsVal (xs ++ [c]) = 10 * digitsVal xs + (c.toNat - 48) := by
  unfold digitsVal
  rw [List.foldl_append]
  simp

theorem digitsVal_natDigits (n : ℕ) : digitsVal (natDigits n) = n := by
  induction n using Nat.strong_induction_on with
  | _ n ih =>
    rw [natDigits_eq]
    split
    · next h =>
      simp [digitsVal, digitChar_toNat n h]
    · next h =>
      rw [digitsVal_append_singleton,
          ih (n / 10) (Nat.div_lt_self (by omega) (by omega)),
          digitChar_toNat (n % 10) (Nat.mod_lt _ (by omega))]
      omega

theorem natDigits_length_le (n k : ℕ) (h1 : 1 ≤ n) (h2 : n < 10 ^ k) :
    (natDigits n).length ≤ k := by
  induction n using Nat.strong_induction_on generalizing k with
  | _ n ih =>
    rw [natDigits_eq]
    split
    · next h =>
      have : 1 ≤ k := by
        by_contra hk
        have : k = 0 := by omega
        subst this
        simp at h2
        omega
      simpa using this
    · next h =>
      have hk : 2 ≤ k := by
        by_contra hk
        interval_cases k <;> omega
      have hd : n / 10 < 10 ^ (k - 1) := by
        have : 10 ^ k = 10 ^ (k - 1) * 10 := by
          rw [← pow_succ]
          congr 1
          omega
        omega
      have := ih (n / 10) (Nat.div_lt_self (by omega) (by omega)) (k - 1)
        (by omega) hd
      simp only [List.length_append, List.length_cons, List.length_nil]
      omega

theorem digitsVal_replicate_zero (z : ℕ) (xs : JStr) :
    digitsVal (List.replicate z '0' ++ xs) = digitsVal xs := by
  induction z with
  | zero => simp
  | succ z ih =>
    have : List.replicate (z + 1) '0' ++ xs = '0' :: (List.replicate z '0' ++ xs) := by
      simp [List.replicate_succ]
    rw [this]
    unfold digitsVal at *
    simpa using ih

theorem takeWhile_append_all {p : Char → Bool} (xs ys : JStr)
    (h : ∀ c ∈ xs, p c = true) :
    (xs ++ ys).takeWhile p = xs ++ ys.takeWhile p := by
  induction xs with
  | nil => simp
  | cons c rest ih =>
    simp only [List.cons_append, List.takeWhile_cons, h c (by simp), if_true]
    rw [ih (fun x hx => h x (by simp [hx]))]

theorem dropWhile_append_all {p : Char → Bool} (xs ys : JStr)
    (h : ∀ c ∈ xs, p c = true) :
    (xs ++ ys).dropWhile p = ys.dropWhile p := by
  induction xs with
  | nil => simp
  | cons c rest ih =>
    simp only [List.cons_append, List.dropWhile_cons, h c (by simp), if_true]
    exact ih (fun x hx => h x (by simp [hx]))

theorem takeWhile_eq_self_of_all {p : Char → Bool} (xs : JStr)
    (h : ∀ c ∈ xs, p c = true) : xs.takeWhile p = xs := by
  have := takeWhile_append_all (p := p) xs [] h
  simpa using this

theorem dropWhile_eq_nil_of_all {p : Char → Bool} (xs : JStr)
    (h : ∀ c ∈ xs, p c = true) : xs.dropWhile p = [] := by
  have := dropWhile_append_all (p := p) xs [] h
  simpa using this

/-- Addition of JS numbers, computed through `mkRat` so that concrete
values reduce in the kernel; `jsAdd_eq` identifies it with `+`. -/
def jsAdd (a b : ℚ) : ℚ := mkRat (a.num * b.den + b.num * a.den) (a.den * b.den)

/-- Negation of a JS number through `mkRat`. -/
def jsNeg (a : ℚ) : ℚ := mkRat (-a.num) a.den

/-- Subtraction of JS numbers. -/
def jsSub (a b : ℚ) : ℚ := jsAdd a (jsNeg b)

/-- Division of a JS number by a natural number through `mkRat`. -/
def jsDivNat (a : ℚ) (n : ℕ) : ℚ := mkRat a.num (a.den * n)

/-- `Math.min` on two JS numbers. -/
def jsMin (a b : ℚ) : ℚ := if a ≤ b then a else b

/-- `Math.max` on two JS numbers. -/
def jsMax (a b : ℚ) : ℚ := if a ≤ b then b else a

theorem jsAdd_eq (a b : ℚ) : jsAdd a b = a + b := by
  unfold jsAdd
  rw [Rat.mkRat_eq_div]
  push_cast
  have ha : (a.den : ℚ) ≠ 0 := by exact_mod_cast a.pos.ne'
  have hb : (b.den : ℚ) ≠ 0 := by exact_mod_cast b.pos.ne'
  conv_rhs => rw [← Rat.num_div_den a, ← Rat.num_div_den b]
  field_simp

theorem jsNeg_eq (a : ℚ) : jsNeg a = -a := by
  unfold jsNeg
  rw [Rat.mkRat_eq_div]
  push_cast
  rw [neg_div, Rat.num_div_den]

theorem jsSub_eq (a b : ℚ) : jsSub a b = a - b := by
  unfold jsSub
  rw [jsAdd_eq, jsNeg_eq, sub_eq_add_neg]

theorem jsDivNat_eq (a : ℚ) (n : ℕ) : jsDivNat a n = a / n := by
  unfold jsDivNat
  rcases Nat.eq_zero_or_pos n with rfl | hn
  · simp
  · rw [Rat.mkRat_eq_div]
    push_cast
    have ha : (a.den : ℚ) ≠ 0 := by exact_mod_cast a.pos.ne'
    have hn' : (n : ℚ) ≠ 0 := by exact_mod_cast hn.ne'
    conv_rhs => rw [← Rat.num_div_den a]
    field_simp

theorem jsMin_eq (a b : ℚ) : jsMin a b = min a b := (min_def a b).symm

theorem jsMax_eq (a b : ℚ) : jsMax a b = max a b := (max_def a b).symm

/-- `reduce((s, x) => s + x, 0)` over a list of JS numbers. -/
def sumQ (l : List ℚ) : ℚ := l.foldl jsAdd 0

theorem sumQ_from (l : List ℚ) : ∀ a : ℚ, l.foldl jsAdd a = a + l.sum := by
  induction l with
  | nil => intro a; simp [sumQ]
  | cons x xs ih =>
    intro a
    simp only [List.foldl_cons, List.sum_cons]
    rw [ih (jsAdd a x), jsAdd_eq]
    ring

theorem sumQ_eq (l : List ℚ) : sumQ l = l.sum := by
  unfold sumQ
  rw [sumQ_from]
  ring

/-- `Math.floor(q / 500000)`, computed on the numerator/denominator pair so
that concrete values reduce in the kernel. -/
def floor500k (q : ℚ) : ℤ := q.num / (q.den * 500000 : ℤ)

/-- `Math.ceil(q / 500000)`. -/
def ceil500k (q : ℚ) : ℤ := -floor500k (jsNeg q)

theorem floor500k_eq (q : ℚ) : floor500k q = ⌊q / 500000⌋ := by
  unfold floor500k
  have h1 : q / 500000 = ((q.num : ℚ)) / ((q.den * 500000 : ℕ) : ℚ) := by
    conv_lhs => rw [← Rat.num_div_den q]
    push_cast
    have ha : (q.den : ℚ) ≠ 0 := by exact_mod_cast q.pos.ne'
    field_simp
  rw [h1, Rat.floor_intCast_div_natCast]
  push_cast
  ring_nf

theorem ceil500k_eq (q : ℚ) : ceil500k q = ⌈q / 500000⌉ := by
  unfold ceil500k
  rw [jsNeg_eq, floor500k_eq]
  rw [neg_div]
  rw [Int.floor_neg]
  ring

/-- Model of the JavaScript `Number(...)` conversion on a sign-free decimal
body: digits with an optional single decimal point (`"5"`, `"5."`, `".5"`,
`"5.25"`); anything else is NaN (`none`). -/
def parseDec (s : JStr) : Option ℚ :=
  let ds := s.takeWhile isDigitCh
  let rest := s.dropWhile isDigitCh
  match rest with
  | [] => if ds.isEmpty then none else some (digitsVal ds : ℚ)
  | '.' :: fs =>
    if fs.all isDigitCh then
      if ds.isEmpty && fs.isEmpty then none
      else some (jsAdd (digitsVal ds : ℚ) (jsDivNat (digitsVal fs : ℚ) (10 ^ fs.length)))
    else none
  | _ => none

/-- Model of JavaScript `Number(str)` for the decimal strings occurring in
the ledger formats: trims, maps the empty string to `0`, handles an optional
leading sign, and parses a decimal body; other inputs are NaN (`none`). -/
def jsNumber (s : JStr) : Option ℚ :=
  let t := trimStr s
  if t.isEmpty then some 0
  else if t.head? = some '-' then (parseDec t.tail).map jsNeg
  else if t.head? = some '+' then parseDec t.tail
  else parseDec t

theorem isWs_eq_false_of_digit {c : Char} (h : isDigitCh c = true) :
    isWs c = false := by
  cases hw : isWs c
  · rfl
  · exfalso
    simp only [isWs, Bool.or_eq_true, decide_eq_true_eq] at hw
    simp only [isDigitCh, Bool.and_eq_true, decide_eq_true_eq] at h
    have h48 : 48 ≤ c.toNat := h.1
    have hc : c = ' ' ∨ c = '\t' ∨ c = '\n' ∨ c = '\r' := by tauto
    rcases hc with rfl | rfl | rfl | rfl <;> simp at h48

theorem jsNumber_of_digits (s : JStr) (hne : s ≠ [])
    (h : ∀ c ∈ s, isDigitCh c = true) :
    jsNumber s = some (digitsVal s : ℚ) := by
  have htrim : trimStr s = s :=
    trimStr_eq_self s (fun c hc => isWs_eq_false_of_digit (h c hc))
  unfold jsNumber
  simp only [htrim]
  obtain ⟨c, rest, rfl⟩ := List.exists_cons_of_ne_nil hne
  have hc : isDigitCh c = true := h c (by simp)
  have hnotminus : c ≠ '-' := by rintro rfl; simp [isDigitCh] at hc
  have hnotplus : c ≠ '+' := by rintro rfl; simp [isDigitCh] at hc
  simp only [List.isEmpty_cons, List.head?_cons, if_false, Bool.false_eq_true]
  rw [if_neg (by simp [hnotminus]), if_neg (by simp [hnotplus])]
  unfold parseDec
  rw [takeWhile_eq_self_of_all _ h, dropWhile_eq_nil_of_all _ h]
  simp

/-- Smallest power-of-ten exponent (searched up to `d`) whose power `d`
divides; used to render a decimal rational the way JS prints a number. -/
def findK (d : ℕ) : Option ℕ :=
  (List.range (d + 1)).find? (fun k => 10 ^ k % d == 0)

/-- Decimal rendering of a nonnegative rational with power-of-ten
denominator (model of JS `String(x)` for such values; the fallback branch is
never reached by values produced by `jsNumber`). -/
def posStr (q : ℚ) : JStr :=
  match findK q.den with
  | none => natDigits q.num.toNat
  | some k =>
    let N : ℕ := q.num.toNat * (10 ^ k / q.den)
    if k = 0 then natDigits N
    else
      natDigits (N / 10 ^ k) ++
        '.' :: (List.replicate (k - (natDigits (N % 10 ^ k)).length) '0' ++
          natDigits (N % 10 ^ k))

/-- Model of JS `String(x)` for a (decimal) rational of either sign. -/
def numStr (q : ℚ) : JStr := if q < 0 then '-' :: posStr (-q) else posStr q

theorem dvd_ten_pow_self {d L : ℕ} (hd : 0 < d) (h : d ∣ 10 ^ L) :
    d ∣ 10 ^ d := by
  induction d using Nat.strong_induction_on with
  | _ d ih =>
    rcases eq_or_ne d 1 with rfl | hne
    · exact one_dvd _
    · have hp : Nat.Prime d.minFac := Nat.minFac_prime hne
      have hpd : d.minFac ∣ d := Nat.minFac_dvd d
      have hp10 : d.minFac ∣ 10 := hp.dvd_of_dvd_pow (hpd.trans h)
      obtain ⟨d', hd'⟩ := hpd
      have hd'pos : 0 < d' := by
        rcases Nat.eq_zero_or_pos d' with h0 | h0
        · subst h0; simp at hd'; omega
        · exact h0
      have hd'lt : d' < d := by
        have h2 : 2 ≤ d.minFac := hp.two_le
        calc d' < 2 * d' := by omega
        _ ≤ d.minFac * d' := by exact Nat.mul_le_mul_right d' h2
        _ = d := hd'.symm
      have hd'dvd : d' ∣ 10 ^ L := dvd_trans (Dvd.intro_left _ hd'.symm) h
      have ihd' : d' ∣ 10 ^ d' := ih d' hd'lt hd'pos hd'dvd
      have step : d ∣ 10 ^ (d' + 1) := by
        rw [hd', pow_succ, mul_comm (10 ^ d') 10]
        exact mul_dvd_mul hp10 ihd'
      exact step.trans (pow_dvd_pow 10 (by omega))

theorem findK_spec {d k : ℕ} (h : findK d = some k) : 10 ^ k % d = 0 := by
  have := List.find?_some h
  simpa using this

theorem findK_isSome {d L : ℕ} (hd : 0 < d) (h : d ∣ 10 ^ L) :
    ∃ k, findK d = some k := by
  rw [← Option.isSome_iff_exists]
  rw [findK, List.find?_isSome]
  refine ⟨d, by simp, ?_⟩
  simpa using Nat.mod_eq_zero_of_dvd (dvd_ten_pow_self hd h)

theorem findK_one : findK 1 = some 0 := by decide

theorem posStr_all_chars (q : ℚ) :
    ∀ c ∈ posStr q, isDigitCh c = true ∨ c = '.' := by
  unfold posStr
  intro c hc
  rcases h : findK q.den with _ | k
  · rw [h] at hc
    exact Or.inl (natDigits_all_digits _ c hc)
  · rw [h] at hc
    by_cases hk : k = 0
    · simp only [if_pos hk] at hc
      exact Or.inl (natDigits_all_digits _ c hc)
    · simp only [if_neg hk] at hc
      simp only [List.mem_append, List.mem_cons, List.mem_replicate] at hc
      rcases hc with hc | hc | hc
      · exact Or.inl (natDigits_all_digits _ c hc)
      · exact Or.inr hc
      · rcases hc with hc | hc
        · exact Or.inl (by rw [hc.2]; decide)
        · exact Or.inl (natDigits_all_digits _ c hc)

theorem posStr_ne_nil (q : ℚ) : posStr q ≠ [] := by
  unfold posStr
  rcases h : findK q.den with _ | k
  · exact natDigits_ne_nil _
  · by_cases hk : k = 0
    · simp only [if_pos hk]; exact natDigits_ne_nil _
    · simp only [if_neg hk]
      intro he
      exact natDigits_ne_nil _ (List.append_eq_nil.mp he).1

theorem digit_ne_sign {c : Char} (h : isDigitCh c = true) : c ≠ '-' ∧ c ≠ '+' := by
  constructor <;> rintro rfl <;> exact absurd h (by decide)

theorem jsNumber_eq_parseDec (s : JStr) (hne : s ≠ [])
    (hno : ∀ c ∈ s, isWs c = false)
    (hhead : ∀ c, s.head? = some c → c ≠ '-' ∧ c ≠ '+') :
    jsNumber s = parseDec s := by
  unfold jsNumber
  rw [trimStr_eq_self s hno]
  obtain ⟨c, rest, rfl⟩ := List.exists_cons_of_ne_nil hne
  obtain ⟨hm, hp⟩ := hhead c rfl
  simp [hm, hp]

theorem parseDec_decimal (ds fs : JStr)
    (hds : ∀ c ∈ ds, isDigitCh c = true)
    (hfs : ∀ c ∈ fs, isDigitCh c = true) (hdsne : ds ≠ []) :
    parseDec (ds ++ '.' :: fs) =
      some ((digitsVal ds : ℚ) + (digitsVal fs : ℚ) / (10 : ℚ) ^ fs.length) := by
  unfold parseDec
  rw [takeWhile_append_all _ _ hds, dropWhile_append_all _ _ hds]
  have hdot : isDigitCh '.' = false := by decide
  rw [List.takeWhile_cons, List.dropWhile_cons]
  simp only [hdot, Bool.false_eq_true, if_false, List.append_nil]
  simp [List.all_eq_true.mpr hfs, List.isEmpty_iff, hdsne]
  rw [jsAdd_eq, jsDivNat_eq]
  push_cast
  ring

theorem parseDec_digits (s : JStr) (hne : s ≠ [])
    (h : ∀ c ∈ s, isDigitCh c = true) :
    parseDec s = some (digitsVal s : ℚ) := by
  unfold parseDec
  rw [takeWhile_eq_self_of_all _ h, dropWhile_eq_nil_of_all _ h]
  simp [List.isEmpty_iff, hne]

theorem posStr_no_ws (q : ℚ) : ∀ c ∈ posStr q, isWs c = false := by
  intro c hc
  rcases posStr_all_chars q c hc with h | rfl
  · exact isWs_eq_false_of_digit h
  · decide

/-- Round trip: parsing the decimal rendering of a positive rational whose
denominator divides a power of ten recovers the rational. -/
theorem jsNumber_posStr (q : ℚ) (hq : 0 < q) {k : ℕ} (hk : findK q.den = some k) :
    jsNumber (posStr q) = some q := by
  have hdvd : q.den ∣ 10 ^ k := Nat.dvd_of_mod_eq_zero (findK_spec hk)
  have hden : (0:ℚ) < (q.den : ℚ) := by exact_mod_cast q.pos
  have hnum : (0:ℤ) < q.num := Rat.num_pos.mpr hq
  have hcast : ((10 ^ k / q.den : ℕ) : ℚ) = (10 : ℚ) ^ k / (q.den : ℚ) := by
    rw [Nat.cast_div hdvd (by positivity)]
    push_cast
    ring
  have htn : ((q.num.toNat : ℕ) : ℚ) = (q.num : ℚ) := by
    exact_mod_cast congrArg (fun z : ℤ => (z : ℚ)) (Int.toNat_of_nonneg hnum.le)
  have hNq : ((q.num.toNat * (10 ^ k / q.den) : ℕ) : ℚ) = q * 10 ^ k := by
    rw [Nat.cast_mul, htn, hcast]
    rw [mul_div_assoc']
    rw [div_eq_iff (ne_of_gt hden)]
    rw [mul_right_comm, Rat.mul_den_eq_num]
  set N : ℕ := q.num.toNat * (10 ^ k / q.den) with hN
  by_cases hk0 : k = 0
  · subst hk0
    have hposStr : posStr q = natDigits N := by
      rw [hN]
      unfold posStr
      rw [hk]
      exact rfl
    rw [hposStr,
        jsNumber_of_digits _ (natDigits_ne_nil N) (natDigits_all_digits N),
        digitsVal_natDigits]
    rw [pow_zero, mul_one] at hNq
    rw [hNq]
  · have hposStr : posStr q =
        natDigits (N / 10 ^ k) ++
          '.' :: (List.replicate (k - (natDigits (N % 10 ^ k)).length) '0' ++
            natDigits (N % 10 ^ k)) := by
      rw [hN]
      unfold posStr
      rw [hk]
      simp only [if_neg hk0]
    have hfp_pos : 0 < N % 10 ^ k := by
      rcases Nat.eq_zero_or_pos (N % 10 ^ k) with h0 | h0
      · exfalso
        have hNdvd : 10 ^ k ∣ N := Nat.dvd_of_mod_eq_zero h0
        obtain ⟨ip, hip⟩ := hNdvd
        have : q * 10 ^ k = (ip : ℚ) * 10 ^ k := by
          rw [← hNq, hip]
          push_cast
          ring
        have hqip : q = (ip : ℚ) :=
          mul_right_cancel₀ (by positivity) this
        have hden1 : q.den = 1 := by rw [hqip]; exact Rat.den_natCast ip
        rw [hden1, findK_one] at hk
        exact hk0 (by injection hk with h; omega)
      · exact h0
    have hfp_lt : N % 10 ^ k < 10 ^ k := Nat.mod_lt _ (by positivity)
    have hlen : (natDigits (N % 10 ^ k)).length ≤ k :=
      natDigits_length_le _ _ hfp_pos hfp_lt
    set frac : JStr := List.replicate (k - (natDigits (N % 10 ^ k)).length) '0' ++
      natDigits (N % 10 ^ k) with hfrac
    have hfracdig : ∀ c ∈ frac, isDigitCh c = true := by
      intro c hc
      rw [hfrac] at hc
      simp only [List.mem_append, List.mem_replicate] at hc
      rcases hc with hc | hc
      · rw [hc.2]; decide
      · exact natDigits_all_digits _ c hc
    have hfraclen : frac.length = k := by
      rw [hfrac]
      simp only [List.length_append, List.length_replicate]
      omega
    have hfracval : digitsVal frac = N % 10 ^ k := by
      rw [hfrac, digitsVal_replicate_zero, digitsVal_natDigits]
    rw [hposStr]
    rw [jsNumber_eq_parseDec]
    · rw [parseDec_decimal _ _ (natDigits_all_digits _) hfracdig (natDigits_ne_nil _)]
      rw [digitsVal_natDigits, hfracval, hfraclen]
      congr 1
      have hpow : (0:ℚ) < (10:ℚ) ^ k := by positivity
      have hnat : (N / 10 ^ k) * 10 ^ k + N % 10 ^ k = N := by
        have h := Nat.div_add_mod N (10 ^ k)
        rw [mul_comm] at h
        exact h
      have hsum : ((N / 10 ^ k : ℕ) : ℚ) + ((N % 10 ^ k : ℕ) : ℚ) / (10 : ℚ) ^ k
          = (N : ℚ) / (10 : ℚ) ^ k := by
        rw [eq_div_iff (ne_of_gt hpow), add_mul,
            div_mul_cancel₀ _ (ne_of_gt hpow)]
        exact_mod_cast congrArg (fun n : ℕ => (n : ℚ)) hnat
      rw [hsum, hNq, mul_div_cancel_right₀ _ (ne_of_gt hpow)]
    · intro he
      exact natDigits_ne_nil _ (List.append_eq_nil.mp he).1
    · intro c hc
      simp only [List.mem_append, List.mem_cons] at hc
      rcases hc with hc | hc | hc
      · exact isWs_eq_false_of_digit (natDigits_all_digits _ c hc)
      · subst hc; decide
      · exact isWs_eq_false_of_digit (hfracdig c hc)
    · intro c hc
      have hcm : c ∈ natDigits (N / 10 ^ k) ++ '.' :: frac := List.mem_of_mem_head? hc
      rcases List.exists_cons_of_ne_nil (natDigits_ne_nil (N / 10 ^ k)) with ⟨c0, r0, hr0⟩
      rw [hr0] at hc
      simp only [List.cons_append, List.head?_cons, Option.some_inj] at hc
      subst hc
      exact digit_ne_sign (natDigits_all_digits _ c0 (by rw [hr0]; simp))

theorem den_add_div_pow (a b L : ℕ) :
    ((a : ℚ) + (b : ℚ) / (10 : ℚ) ^ L).den ∣ 10 ^ L := by
  have hpow : ((10 : ℚ) ^ L) ≠ 0 := by positivity
  have hx : (a : ℚ) + (b : ℚ) / (10 : ℚ) ^ L
      = ((a * 10 ^ L + b : ℕ) : ℚ) / ((10 ^ L : ℕ) : ℚ) := by
    push_cast
    field_simp
  have hdiv : (a : ℚ) + (b : ℚ) / (10 : ℚ) ^ L
      = Rat.divInt ((a * 10 ^ L + b : ℕ) : ℤ) ((10 ^ L : ℕ) : ℤ) := by
    rw [Rat.divInt_eq_div, hx]
    push_cast
    ring
  have := Rat.den_dvd ((a * 10 ^ L + b : ℕ) : ℤ) ((10 ^ L : ℕ) : ℤ)
  rw [← hdiv] at this
  exact_mod_cast this

theorem parseDec_findK {s : JStr} {v : ℚ} (h : parseDec s = some v) :
    ∃ k, findK v.den = some k := by
  simp only [parseDec] at h
  split at h
  · split at h
    · exact absurd h (by simp)
    · have hv : v = ((digitsVal (s.takeWhile isDigitCh) : ℕ) : ℚ) := by
        injection h with h'
        exact h'.symm
      refine ⟨0, ?_⟩
      rw [hv, Rat.den_natCast]
      exact findK_one
  · next fs _ =>
    split at h
    · split at h
      · exact absurd h (by simp)
      · have hv : v = jsAdd (digitsVal (s.takeWhile isDigitCh) : ℚ)
            (jsDivNat (digitsVal fs : ℚ) (10 ^ fs.length)) := by
          injection h with h'
          exact h'.symm
        rw [jsAdd_eq, jsDivNat_eq] at hv
        push_cast at hv
        have hdvd : v.den ∣ 10 ^ fs.length := by
          rw [hv]
          exact den_add_div_pow _ _ _
        exact findK_isSome v.pos hdvd
    · exact absurd h (by simp)
  · exact absurd h (by simp)

theorem jsNumber_findK {s : JStr} {q : ℚ} (h : jsNumber s = some q) :
    ∃ k, findK q.den = some k := by
  simp only [jsNumber] at h
  split at h
  · have hq : q = 0 := by injection h with h'; exact h'.symm
    refine ⟨0, ?_⟩
    rw [hq]
    exact findK_one
  · split at h
    · rcases Option.map_eq_some'.mp h with ⟨v, hv, rfl⟩
      have hd : (jsNeg v).den = v.den := by
        rw [jsNeg_eq]
        exact Rat.den_neg_eq_den v
      rw [hd]
      exact parseDec_findK hv
    · split at h
      · exact parseDec_findK h
      · exact parseDec_findK h

theorem digitsVal_cons_zero (c : Char) : digitsVal ['0', c] = digitsVal [c] := by
  simp [digitsVal]

/-- Round trip through `padStart(2, "0")`: padding never changes the parsed
value of a rendered positive decimal. -/
theorem jsNumber_pad2_posStr (m : ℚ) (hm : 0 < m) {k : ℕ}
    (hk : findK m.den = some k) :
    jsNumber (pad2 (posStr m)) = some m := by
  by_cases h2 : 2 ≤ (posStr m).length
  · rw [pad2, if_pos h2]
    exact jsNumber_posStr m hm hk
  · have hrt := jsNumber_posStr m hm hk
    have hne := posStr_ne_nil m
    have hlen1 : (posStr m).length = 1 := by
      rcases hl : (posStr m).length with _ | n
      · exact absurd (List.length_eq_zero.mp hl) hne
      · rcases n with _ | n
        · rfl
        · exfalso; rw [hl] at h2; omega
    obtain ⟨c, hc⟩ := List.length_eq_one.mp hlen1
    rcases posStr_all_chars m c (by rw [hc]; simp) with hdig | hdot
    · have hp2 : pad2 (posStr m) = ['0', c] := by
        rw [hc]
        simp [pad2]
      rw [hp2]
      rw [jsNumber_of_digits _ (by simp)
        (by intro x hx; simp at hx; rcases hx with rfl | rfl
            · decide
            · exact hdig)]
      rw [hc, jsNumber_of_digits _ (by simp) (by intro x hx; simp at hx; subst hx; exact hdig)]
        at hrt
      rw [digitsVal_cons_zero, hrt]
    · subst hdot
      rw [hc] at hrt
      have : jsNumber ['.'] = none := by decide
      rw [this] at hrt
      exact absurd hrt (by simp)

/-- The `{y, m, d}` triple produced by `parseDateParts` in
`src/client/src/pages/History.jsx` (components are JS numbers). -/
structure DateParts where
  y : ℚ
  m : ℚ
  d : ℚ
deriving DecidableEq, Repr

/-- Component ordering and year mapping of `parseDateParts`: slash input is
`[m, d, y] = [a, b, c]`, hyphen input is `[y, m, d] = [a, b, c]`; a year
below 100 becomes `2000 + y`; a falsy (zero) component yields `null`. -/
def dateFromABC (slash : Bool) (a b c : ℚ) : Option DateParts :=
  let y0 := if slash then c else a
  let m := if slash then a else b
  let d := if slash then b else c
  let y := if y0 < 100 then jsAdd 2000 y0 else y0
  if y = 0 ∨ m = 0 ∨ d = 0 then none else some ⟨y, m, d⟩

/-- The body of `parseDateParts` after splitting: require at least three
parts whose first three are numeric. -/
def datePartsCore (slash : Bool) (parts : List JStr) : Option DateParts :=
  match parts with
  | p0 :: p1 :: p2 :: _ =>
    match jsNumber p0, jsNumber p1, jsNumber p2 with
    | some a, some b, some c => dateFromABC slash a b c
    | _, _, _ => none
  | _ => none

/-- Embedding of `parseDateParts` from `src/client/src/pages/History.jsx`:
reject empty input, trim, split on `/` if present else `-`, require at least
3 parts with numeric first three, slash means M/D/Y else Y/M/D, add 2000 to
years below 100, and reject if any resulting component is falsy (zero). -/
def parseDateParts (str : JStr) : Option DateParts :=
  if str.isEmpty then none
  else
    datePartsCore ((trimStr str).contains '/')
      (if (trimStr str).contains '/' then jsSplit '/' (trimStr str)
       else jsSplit '-' (trimStr str))

/-- The `YYYY-MM-DD` rendering used by `toIsoDate` (month and day padded
with `padStart(2, "0")`). -/
def isoRender (p : DateParts) : JStr :=
  numStr p.y ++ '-' :: (pad2 (numStr p.m) ++ '-' :: pad2 (numStr p.d))

/-- Embedding of `toIsoDate` from `src/client/src/pages/History.jsx`: the
canonical date string for parsable input, the trimmed input otherwise. -/
def toIsoDate (str : JStr) : JStr :=
  match parseDateParts str with
  | none => trimStr str
  | some p => isoRender p

/-- Claim-side date parser, written from the words of the specification:
split on `/` if present else on `-`; require at least 3 numeric parts; if
the string used `/`, interpret as month/day/year, else year/month/day;
two-digit years are mapped to `2000 + year`; the result is `null` if any
component is non-numeric or any of year/month/day resolves to 0/falsy. -/
def specDateCore (slash : Bool) (parts : List JStr) : Option DateParts :=
  if parts.length < 3 then none
  else
    match jsNumber (parts.getD 0 []), jsNumber (parts.getD 1 []),
        jsNumber (parts.getD 2 []) with
    | some a, some b, some c => dateFromABC slash a b c
    | _, _, _ => none

def specDateParse (s : JStr) : Option DateParts :=
  specDateCore ((trimStr s).contains '/')
    (if (trimStr s).contains '/' then jsSplit '/' (trimStr s)
     else jsSplit '-' (trimStr s))

theorem specDateCore_eq (slash : Bool) (parts : List JStr) :
    specDateCore slash parts = datePartsCore slash parts := by
  rcases parts with _ | ⟨p0, _ | ⟨p1, _ | ⟨p2, rest⟩⟩⟩ <;>
    simp [specDateCore, datePartsCore, List.getD]

theorem parseDateParts_eq_spec (s : JStr) : parseDateParts s = specDateParse s := by
  unfold parseDateParts specDateParse
  rw [specDateCore_eq]
  by_cases hs : s.isEmpty
  · have : s = [] := by simpa using hs
    subst this
    decide
  · rw [if_neg (by simpa using hs)]

/-- Gregorian leap-year test (what `Date.UTC` implements). -/
def isLeap (y : ℤ) : Bool := (y % 4 == 0 && y % 100 != 0) || y % 400 == 0

def leapBit (y : ℤ) : ℤ := if isLeap y then 1 else 0

/-- Days before month `m` in a non-leap year. -/
def mpBase (m : ℤ) : ℤ :=
  if m ≤ 1 then 0 else if m = 2 then 31 else if m = 3 then 59
  else if m = 4 then 90 else if m = 5 then 120 else if m = 6 then 151
  else if m = 7 then 181 else if m = 8 then 212 else if m = 9 then 243
  else if m = 10 then 273 else if m = 11 then 304 else if m = 12 then 334
  else 365

/-- Days before month `m` in a year with leap flag `l`. -/
def monthPrefix (l : Bool) (m : ℤ) : ℤ :=
  mpBase m + (if 3 ≤ m ∧ l then 1 else 0)

def daysInMonth (l : Bool) (m : ℤ) : ℤ :=
  if m = 2 then (if l then 29 else 28)
  else if m = 4 ∨ m = 6 ∨ m = 9 ∨ m = 11 then 30 else 31

/-- Day count of the proleptic Gregorian calendar before January 1 of year
`y` (relative to year 0), used to model `Date.UTC`. -/
def Fdays (y : ℤ) : ℤ :=
  365 * y + (y - 1) / 4 - (y - 1) / 100 + (y - 1) / 400

/-- Calendar days from the Unix epoch to `y-m-d` (month 1-based). -/
def civilFromEpoch (y m d : ℤ) : ℤ :=
  (Fdays y - Fdays 1970) + monthPrefix (isLeap y) m + (d - 1)

/-- Model of `Date.UTC(y, m - 1, d)` (the source passes a 0-based month) at
integer arguments: milliseconds since the epoch at UTC midnight. -/
def dateUTCms (y m d : ℤ) : ℤ := 86400000 * civilFromEpoch y m d

/-- A valid calendar date (the domain on which `Date.UTC` needs no month or
day normalisation). -/
def validYMD (y m d : ℤ) : Prop :=
  1 ≤ m ∧ m ≤ 12 ∧ 1 ≤ d ∧ d ≤ daysInMonth (isLeap y) m

instance (y m d : ℤ) : Decidable (validYMD y m d) := by
  unfold validYMD
  infer_instance

/-- Calendar (lexicographic) order on dates. -/
def dateLtYMD (y1 m1 d1 y2 m2 d2 : ℤ) : Prop :=
  y1 < y2 ∨ (y1 = y2 ∧ (m1 < m2 ∨ (m1 = m2 ∧ d1 < d2)))

theorem dateUTCms_epoch : dateUTCms 1970 1 1 = 0 := by decide

theorem dateUTCms_sample_2024 : dateUTCms 2024 1 1 = 1704067200000 := by decide

theorem dateUTCms_sample_leap : dateUTCms 2000 2 29 = 951782400000 := by decide

theorem dateUTCms_sample_mar : dateUTCms 2023 3 1 = 1677628800000 := by decide

theorem dateUTCms_sample_neg : dateUTCms 1969 12 31 = -86400000 := by decide

theorem isLeap_iff (y : ℤ) :
    isLeap y = true ↔ (y % 4 = 0 ∧ y % 100 ≠ 0) ∨ y % 400 = 0 := by
  simp [isLeap]

theorem Fdays_step (y : ℤ) : Fdays (y + 1) - Fdays y = 365 + leapBit y := by
  unfold Fdays leapBit
  have hiff := isLeap_iff y
  cases hL : isLeap y
  · have hnot : ¬((y % 4 = 0 ∧ y % 100 ≠ 0) ∨ y % 400 = 0) := by
      intro hp
      have := hiff.mpr hp
      rw [hL] at this
      exact absurd this (by simp)
    have hz : (if (false = true) then (1:ℤ) else 0) = 0 := by norm_num
    rw [hz]
    by_cases h4 : y % 4 = 0 <;> by_cases h100 : y % 100 = 0 <;>
      by_cases h400 : y % 400 = 0
    all_goals first
      | (exfalso; apply hnot; tauto)
      | omega
  · have hP : (y % 4 = 0 ∧ y % 100 ≠ 0) ∨ y % 400 = 0 := hiff.mp hL
    have ho : (if (true = true) then (1:ℤ) else 0) = 1 := by norm_num
    rw [ho]
    rcases hP with ⟨h4, h100⟩ | h400
    · omega
    · omega

theorem leapBit_bounds (y : ℤ) : 0 ≤ leapBit y ∧ leapBit y ≤ 1 := by
  unfold leapBit
  split <;> omega

theorem Fdays_ge (y : ℤ) (n : ℕ) : Fdays y + 365 * n ≤ Fdays (y + n) := by
  induction n with
  | zero => simp
  | succ n ih =>
    have hs := Fdays_step (y + n)
    have hlb := leapBit_bounds (y + n)
    have : (((n : ℕ) + 1 : ℕ) : ℤ) = (n : ℤ) + 1 := by push_cast; ring
    rw [this, ← add_assoc]
    omega

theorem dim_pos (l : Bool) (m : ℤ) : 0 < daysInMonth l m := by
  unfold daysInMonth
  split_ifs <;> omega

theorem mp_add_dim (l : Bool) (m : ℤ) (h1 : 1 ≤ m) (h2 : m ≤ 12) :
    monthPrefix l m + daysInMonth l m = monthPrefix l (m + 1) := by
  interval_cases m <;> cases l <;>
    simp [monthPrefix, mpBase, daysInMonth] <;> norm_num

theorem mp_mono (l : Bool) (a : ℤ) (n : ℕ) (h1 : 1 ≤ a) (h13 : a + n ≤ 13) :
    monthPrefix l a ≤ monthPrefix l (a + n) := by
  induction n with
  | zero => simp
  | succ n ih =>
    have hle : a + n ≤ 12 := by push_cast at h13 ⊢; omega
    have hstep := mp_add_dim l (a + n) (by push_cast; omega) hle
    have hd := dim_pos l (a + n)
    have ihh := ih (by push_cast at h13 ⊢; omega)
    have : a + ((n : ℕ) + 1 : ℕ) = (a + n) + 1 := by push_cast; ring
    rw [this]
    omega

theorem doy_bounds (l : Bool) (m d : ℤ) (h1 : 1 ≤ m) (h2 : m ≤ 12)
    (h3 : 1 ≤ d) (h4 : d ≤ daysInMonth l m) :
    0 ≤ monthPrefix l m + (d - 1) ∧
      monthPrefix l m + (d - 1) ≤ 364 + (if l then 1 else 0) := by
  interval_cases m <;> cases l <;>
    simp [monthPrefix, mpBase, daysInMonth] at h4 ⊢ <;> omega

/-- Strict monotonicity of the civil-day count with respect to calendar
order, over valid dates. -/
theorem civilFromEpoch_lt {y1 m1 d1 y2 m2 d2 : ℤ}
    (hv1 : validYMD y1 m1 d1) (hv2 : validYMD y2 m2 d2)
    (hlt : dateLtYMD y1 m1 d1 y2 m2 d2) :
    civilFromEpoch y1 m1 d1 < civilFromEpoch y2 m2 d2 := by
  obtain ⟨a1, b1, c1, e1⟩ := hv1
  obtain ⟨a2, b2, c2, e2⟩ := hv2
  rcases hlt with hy | ⟨rfl, hm | ⟨rfl, hd⟩⟩
  · have hstep := Fdays_step y1
    have hge := Fdays_ge (y1 + 1) (y2 - y1 - 1).toNat
    have hcast : (((y2 - y1 - 1).toNat : ℕ) : ℤ) = y2 - y1 - 1 := by omega
    rw [hcast] at hge
    have hy2 : y1 + 1 + (y2 - y1 - 1) = y2 := by ring
    rw [hy2] at hge
    have hdoy1 := doy_bounds (isLeap y1) m1 d1 a1 b1 c1 e1
    have hdoy2 := doy_bounds (isLeap y2) m2 d2 a2 b2 c2 e2
    unfold civilFromEpoch
    unfold leapBit at hstep
    split at hstep <;> split at hdoy1 <;> simp_all <;> omega
  · have hm12 : m1 ≤ 12 := by omega
    have hstep := mp_add_dim (isLeap y1) m1 a1 hm12
    have hmono := mp_mono (isLeap y1) (m1 + 1) (m2 - m1 - 1).toNat (by omega)
      (by omega)
    have hcast : (((m2 - m1 - 1).toNat : ℕ) : ℤ) = m2 - m1 - 1 := by omega
    rw [hcast] at hmono
    have hm2 : m1 + 1 + (m2 - m1 - 1) = m2 := by ring
    rw [hm2] at hmono
    have hd1 := dim_pos (isLeap y1) m1
    unfold civilFromEpoch
    omega
  · unfold civilFromEpoch
    omega

def otherL : JStr := "other".toList

def otherLiabilityL : JStr := "other liability".toList

def assetL : JStr := "asset".toList

def liabilityL : JStr := "liability".toList

def cashL : JStr := "cash".toList

def stocksL : JStr := "stocks".toList

def cryptoL : JStr := "crypto".toList

def retirementL : JStr := "retirement".toList

def propertyL : JStr := "property".toList

def mortgageL : JStr := "mortgage".toList

def creditCardL : JStr := "credit card".toList

def loansL : JStr := "loans".toList

/-- `liabilityCategories` from `src/client/src/pages/History.jsx`. -/
def liabilityCategories : List JStr :=
  [mortgageL, creditCardL, loansL, otherLiabilityL]

/-- `categoriesOrder` from `src/client/src/pages/Charts.jsx`: the only
categories the chart rollup keeps. -/
def categoriesOrder : List JStr :=
  [cashL, stocksL, cryptoL, retirementL, propertyL, otherL]

/-- `categoryType` from `src/client/src/pages/History.jsx`: liability iff
the lower-cased category is in the fixed liability list, else asset. -/
def categoryType (cat : JStr) : JStr :=
  if toLowerStr cat ∈ liabilityCategories then liabilityL else assetL

/-- `sanitizeCategory`: trim, lower-case, default blank (or null) to
`"other"`. -/
def sanitizeCategory (cat : Option JStr) : JStr :=
  let c := toLowerStr (trimStr (cat.getD []))
  if c.isEmpty then otherL else c

def startsWithStr (p s : JStr) : Bool :=
  match p, s with
  | [], _ => true
  | _ :: _, [] => false
  | a :: ps, b :: ss => a == b && startsWithStr ps ss

/-- `normalizeType`: case-insensitive prefix match of `"liab"` / `"asset"`,
else null. -/
def normalizeType (val : Option JStr) : Option JStr :=
  let t := toLowerStr (trimStr (val.getD []))
  if startsWithStr ("liab".toList) t then some liabilityL
  else if startsWithStr ("asset".toList) t then some assetL
  else none

/-- JavaScript `a || b` on strings (empty string is falsy). -/
def jsOrS (a b : JStr) : JStr := if a.isEmpty then b else a

/-- `defaultCategoryForType` from the CSV import handler. -/
def defaultCategoryForType (t : JStr) : JStr :=
  if t = liabilityL then otherLiabilityL else otherL

/-- Embedding of the per-record `desiredMeta` computation of the batched CSV import
(`onCsvUpload` in the faster `History.jsx` revision):

    categoryFromCsv  = sanitizeCategory(rec.category)
    existingCategory = sanitizeCategory(acctMap.get(key)?.category)
    typeFromCsv      = normalizeType(rec.type)
    typeFromCategory = categoryType(categoryFromCsv || existingCategory)
    type     = typeFromCsv || typeFromCategory || "asset"
    category = categoryFromCsv || existingCategory || defaultCategoryForType(type)

Returns `(type, category)`. -/
def resolveMeta (existingCat : Option JStr) (recCat : Option JStr)
    (recType : Option JStr) : JStr × JStr :=
  let categoryFromCsv := sanitizeCategory recCat
  let existingCategory := sanitizeCategory existingCat
  let typeFromCsv := normalizeType recType
  let typeFromCategory := categoryType (jsOrS categoryFromCsv existingCategory)
  let ty := match typeFromCsv with
    | some t => t
    | none => jsOrS typeFromCategory assetL
  let category := jsOrS categoryFromCsv
    (jsOrS existingCategory (defaultCategoryForType ty))
  (ty, category)

/-- The transient import record produced by `parseCsvLong` (`balance` is
`none` when the stored JS number is not finite). -/
structure ImportRec where
  date : JStr
  account : JStr
  balance : Option ℚ
  type : Option JStr
  category : JStr
deriving DecidableEq

/-- `balStr.replace(/[$,]/g, "")`. -/
def stripMoney (s : JStr) : JStr := s.filter (fun c => !(c == '$' || c == ','))

/-- Column assignment of `parseCsvLong`: 5-column shape when the 5-column
header was detected or the line has at least 5 columns, else the 4-column
shape when that header was detected or the line has exactly 4 columns, else
the 3-column shape.  Missing trailing columns behave as empty (JS
`undefined` is falsy and sanitises like a blank). -/
def shapeCols (h5 h4 : Bool) (cols : List JStr) :
    JStr × JStr × Option JStr × Option JStr × JStr :=
  if h5 || decide (5 ≤ cols.length) then
    (cols.getD 0 [], cols.getD 1 [], some (cols.getD 2 []),
      some (cols.getD 3 []), cols.getD 4 [])
  else if h4 || decide (cols.length = 4) then
    (cols.getD 0 [], cols.getD 1 [], none, some (cols.getD 2 []), cols.getD 3 [])
  else
    (cols.getD 0 [], cols.getD 1 [], none, none, cols.getD 2 [])

/-- One loop iteration of `parseCsvLong`: `none` when the line is rejected,
otherwise the produced record. -/
def lineRec (h5 h4 : Bool) (line : JStr) : Option ImportRec :=
  let cols := (jsSplit ',' line).map trimStr
  if cols.length < 3 then none
  else
    let t := shapeCols h5 h4 cols
    if t.1.isEmpty || t.2.1.isEmpty || t.2.2.2.2.isEmpty then none
    else
      match jsNumber (stripMoney t.2.2.2.2) with
      | none => none
      | some bal =>
        some ⟨toIsoDate t.1, t.2.1, some bal, normalizeType t.2.2.2.1,
          sanitizeCategory t.2.2.1⟩

/-- `text.split(/\r?\n/).map(l => l.trim()).filter(Boolean)` (the trim also
removes a trailing `\r`). -/
def linesOf (text : JStr) : List JStr :=
  ((jsSplit '\n' text).map trimStr).filter (fun l => !l.isEmpty)

/-- `lines[0].split(",").map(h => h.trim().toLowerCase())`. -/
def headerOf (l : JStr) : List JStr :=
  (jsSplit ',' l).map (fun h => toLowerStr (trimStr h))

def hasHeader5 (hd : List JStr) : Bool :=
  hd.getD 0 [] == "date".toList && hd.getD 1 [] == "account".toList &&
  hd.getD 2 [] == "category".toList && hd.getD 3 [] == "type".toList &&
  hd.getD 4 [] == "balance".toList

def hasHeader4 (hd : List JStr) : Bool :=
  hd.getD 0 [] == "date".toList && hd.getD 1 [] == "account".toList &&
  hd.getD 2 [] == "type".toList && hd.getD 3 [] == "balance".toList

def hasHeader3 (hd : List JStr) : Bool :=
  hd.getD 0 [] == "date".toList && hd.getD 1 [] == "account".toList &&
  hd.getD 2 [] == "balance".toList

/-- Embedding of `parseCsvLong` from `src/client/src/pages/History.jsx`. -/
def parseCsvLong (text : JStr) : List ImportRec :=
  let lines := linesOf text
  if lines.length < 2 then []
  else
    let hd := headerOf (lines.getD 0 [])
    let h5 := hasHeader5 hd
    let h4 := hasHeader4 hd
    let h3 := hasHeader3 hd
    let start := if h5 || h4 || h3 then 1 else 0
    (lines.drop start).filterMap (lineRec h5 h4)

/-- Counters of the per-record balance import loop (`imported`, `failed`,
and the number of `addBalance` network calls issued so far). -/
structure ImpRes where
  imported : ℕ
  failed : ℕ
  calls : ℕ
deriving DecidableEq, Repr

/-- The cleaning/validation check of the import loop: non-empty trimmed
account, truthy canonical date, finite balance. -/
def validRec (r : ImportRec) : Bool :=
  !(trimStr r.account).isEmpty && !(toIsoDate r.date).isEmpty && r.balance.isSome

/-- One iteration of the import loop.  `ok n` is the outcome of the `n`-th
`addBalance` network call (`true` = fulfilled): an invalid record counts as
a failure without a call; a valid record issues one call and counts as imported
or failed according to the outcome. -/
def importStep (ok : ℕ → Bool) (st : ImpRes) (r : ImportRec) : ImpRes :=
  if validRec r then
    if ok st.calls then ⟨st.imported + 1, st.failed, st.calls + 1⟩
    else ⟨st.imported, st.failed + 1, st.calls + 1⟩
  else ⟨st.imported, st.failed + 1, st.calls⟩

/-- Embedding of the balance import loop of `onCsvUpload`
(`src/client/src/pages/History.jsx`). -/
def runImport (ok : ℕ → Bool) (recs : List ImportRec) : ImpRes :=
  recs.foldl (importStep ok) ⟨0, 0, 0⟩

/-- The unconditional-success status text `Imported N rows.`. -/
def successStatus (i : ℕ) : JStr :=
  "Imported ".toList ++ natDigits i ++ " rows.".toList

/-- The final status line set by `onCsvUpload`. -/
def importStatus (i f : ℕ) : JStr :=
  successStatus i ++
    (if f = 0 then []
     else ' ' :: (natDigits f ++ " failed (open Console).".toList))

/-- Server-side balance store keyed by account name (ids are stable and in
bijection with names per user, so the name is the key; `accounts` pairs a
name with its category). -/
structure SrvState where
  accounts : List (JStr × JStr)
  balances : List (JStr × JStr × ℚ)
deriving DecidableEq

/-- `INSERT INTO accounts(user_id, name) ... ON CONFLICT DO NOTHING`: the
schema default category is `'other'`. -/
def ensureAccount (name : JStr) (s : SrvState) : SrvState :=
  if s.accounts.any (fun a => a.1 == name) then s
  else { s with accounts := s.accounts ++ [(name, otherL)] }

/-- `INSERT INTO balances ... ON CONFLICT(account_id, date) DO UPDATE SET
balance = excluded.balance`. -/
def upsertBal (name date : JStr) (bal : ℚ) :
    List (JStr × JStr × ℚ) → List (JStr × JStr × ℚ)
  | [] => [(name, date, bal)]
  | e :: rest =>
    if e.1 == name && e.2.1 == date then (name, date, bal) :: rest
    else e :: upsertBal name date bal rest

/-- `POST /balances` (name-keyed view): ensure the account, then upsert the
balance row. -/
def postBalance (name date : JStr) (bal : ℚ) (s : SrvState) : SrvState :=
  let s1 := ensureAccount name s
  { s1 with balances := upsertBal name date bal s1.balances }

/-- The cleaning step of the import loop, producing the `addBalance`
payload, or `none` for a record skipped as invalid. -/
def cleanBal (r : ImportRec) : Option (JStr × JStr × ℚ) :=
  match r.balance with
  | none => none
  | some b =>
    if (trimStr r.account).isEmpty || (toIsoDate r.date).isEmpty then none
    else some (trimStr r.account, toIsoDate r.date, b)

/-- Full-replace balance import: delete every existing balance row, then
`addBalance` each surviving (cleaned) record in order. -/
def fullImport (recs : List ImportRec) (s : SrvState) : SrvState :=
  recs.foldl
    (fun st r =>
      match cleanBal r with
      | none => st
      | some c => postBalance c.1 c.2.1 c.2.2 st)
    { s with balances := [] }

/-- An account row of the id-carrying server model. -/
structure Acct where
  id : ℕ
  name : JStr
  category : JStr
deriving DecidableEq

/-- A balance row referencing its account by id. -/
structure BalRow where
  accountId : ℕ
  date : JStr
  value : ℚ
deriving DecidableEq

/-- The id-carrying server store for one user. -/
structure Srv10 where
  accounts : List Acct
  balances : List BalRow
  nextId : ℕ
deriving DecidableEq

def upsertBalRow (aid : ℕ) (date : JStr) (v : ℚ) : List BalRow → List BalRow
  | [] => [⟨aid, date, v⟩]
  | b :: rest =>
    if b.accountId == aid && b.date == date then ⟨aid, date, v⟩ :: rest
    else b :: upsertBalRow aid date v rest

/-- Embedding of the `POST /balances` handler (`src/unnamed/part_000`):
reject when account/date/balance is missing; otherwise insert the account
(schema default category `'other'`) if absent, look up its id, and upsert
the balance row against that id. -/
def postBalanceSrv (account date : JStr) (balance : Option ℚ) (s : Srv10) : Srv10 :=
  if account.isEmpty || date.isEmpty || balance.isNone then s
  else
    let s1 :=
      if s.accounts.any (fun a => a.name == account) then s
      else { s with accounts := s.accounts ++ [⟨s.nextId, account, otherL⟩],
                    nextId := s.nextId + 1 }
    match s1.accounts.find? (fun a => a.name == account) with
    | none => s1
    | some a => { s1 with balances := upsertBalRow a.id date (balance.getD 0) s1.balances }

/-- One element of the `GET /timeseries` response. -/
structure TPoint where
  date : JStr
  accounts : List (JStr × ℚ)
  netWorth : ℚ
deriving DecidableEq

/-- `byDate.get(r.date).accounts[r.account] = r.balance` (JS object
assignment: replace in place, else append). -/
def upsertEntry (k : JStr) (v : ℚ) : List (JStr × ℚ) → List (JStr × ℚ)
  | [] => [(k, v)]
  | e :: rest => if e.1 == k then (k, v) :: rest else e :: upsertEntry k v rest

/-- One iteration of the grouping loop of `GET /timeseries`. -/
def addRow (acc : List TPoint) (r : JStr × JStr × ℚ) : List TPoint :=
  if acc.any (fun tp => tp.date == r.1) then
    acc.map (fun tp =>
      if tp.date == r.1 then { tp with accounts := upsertEntry r.2.1 r.2.2 tp.accounts }
      else tp)
  else acc ++ [⟨r.1, [(r.2.1, r.2.2)], 0⟩]

/-- Embedding of `GET /timeseries` (`src/unnamed/part_000`): group rows by
date, then set each point's `netWorth` to the sum of its account values. -/
def timeseries (rows : List (JStr × JStr × ℚ)) : List TPoint :=
  (rows.foldl addRow []).map
    (fun tp => { tp with netWorth := sumQ (tp.accounts.map Prod.snd) })

/-- The client-side account→category map of `Charts.jsx`
(`new Map(accounts.map(a => [a.name, (a.category || "other").toLowerCase()]))`
with `|| "other"` at lookup). -/
def acctCategoryOf (accounts : List (JStr × JStr)) (name : JStr) : JStr :=
  match accounts.reverse.find? (fun a => a.1 == name) with
  | some a => toLowerStr (jsOrS a.2 otherL)
  | none => otherL

/-- One row of `chartData`: `netWorth` plus the six chart category fields.
Categories outside `categoriesOrder` are accumulated transiently but never
copied into the row. -/
structure YRow where
  netWorth : Option ℚ
  cash : ℚ
  stocks : ℚ
  crypto : ℚ
  retirement : ℚ
  property : ℚ
  other : ℚ
deriving DecidableEq

/-- `catSums[cat] += bal` as a function update. -/
def catUpdate (f : JStr → ℚ) (k : JStr) (b : ℚ) : JStr → ℚ :=
  fun c => if c = k then jsAdd (f c) b else f c

/-- The `catSums` accumulation of `chartData` over one date's entries. -/
def catSumsFun (accounts : List (JStr × JStr)) (entries : List (JStr × ℚ)) :
    JStr → ℚ :=
  entries.foldl (fun f e => catUpdate f (acctCategoryOf accounts e.1) e.2)
    (fun _ => 0)

/-- The `chartData` row built for one timeseries point
(`src/client/src/pages/Charts.jsx`, the `chartData` map). -/
def chartRowOf (accounts : List (JStr × JStr)) (tp : TPoint) : YRow :=
  ⟨some tp.netWorth,
    catSumsFun accounts tp.accounts cashL,
    catSumsFun accounts tp.accounts stocksL,
    catSumsFun accounts tp.accounts cryptoL,
    catSumsFun accounts tp.accounts retirementL,
    catSumsFun accounts tp.accounts propertyL,
    catSumsFun accounts tp.accounts otherL⟩

/-- `categoriesOrder.reduce((s, c) => s + (Number(r[c]) || 0), 0)`. -/
def catSumRow (r : YRow) : ℚ :=
  jsAdd (jsAdd (jsAdd (jsAdd (jsAdd r.cash r.stocks) r.crypto) r.retirement)
    r.property) r.other

/-- The value list `allVals` scanned by `computeY` (per row: the netWorth if
present, then the row's chart-category sum). -/
def allValsOf (rows : List YRow) : List ℚ :=
  rows.foldr
    (fun r acc =>
      (match r.netWorth with | some v => [v] | none => []) ++ catSumRow r :: acc)
    []

/-- The tick loop `for (let t = minTick; t <= maxTick; t += step)`. -/
def ticksList (lo hi : ℤ) : List ℤ :=
  if hi < lo then []
  else (List.range ((hi - lo).toNat / 500000 + 1)).map
    (fun i : ℕ => lo + 500000 * (i : ℤ))

/-- Embedding of `computeY` from `src/client/src/pages/Charts.jsx`: step
500000; min and max over the considered values (expanded by one step each
way when equal); bounds rounded outward to step multiples; one tick per
step from the floor to the ceiling.  The `domain` is `none` for the
`["auto", "auto"]` placeholder returned on empty data. -/
def computeY (rows : List YRow) : Option (ℤ × ℤ) × List ℤ :=
  match allValsOf rows with
  | [] => (none, [])
  | v :: vs =>
    let mn0 := vs.foldl jsMin v
    let mx0 := vs.foldl jsMax v
    let mn := if mn0 = mx0 then jsSub mn0 500000 else mn0
    let mx := if mn0 = mx0 then jsAdd mx0 500000 else mx0
    (some (floor500k mn * 500000, ceil500k mx * 500000),
      ticksList (floor500k mn * 500000) (ceil500k mx * 500000))

/-- The adjusted minimum and maximum considered by `computeY` (`none` when
there is no data). -/
def adjMinMax (rows : List YRow) : Option (ℚ × ℚ) :=
  match allValsOf rows with
  | [] => none
  | v :: vs =>
    let mn0 := vs.foldl jsMin v
    let mx0 := vs.foldl jsMax v
    if mn0 = mx0 then some (jsSub mn0 500000, jsAdd mx0 500000)
    else some (mn0, mx0)

theorem sanitizeCategory_not_empty (x : Option JStr) :
    (sanitizeCategory x).isEmpty = false := by
  simp only [sanitizeCategory]
  split
  · decide
  · next h => simpa using h

theorem categoryType_not_empty (c : JStr) : (categoryType c).isEmpty = false := by
  unfold categoryType
  split <;> decide

/-- C3 (amended): during import-metadata resolution the resolved category is
always the sanitised CSV category — a blank or missing CSV category
sanitises to `"other"`, so the existing-account-category and
default-for-type fallbacks written in the precedence chain are dead; the
resolved type is the explicit CSV type if present, else the type implied by
the sanitised CSV category (asset for any category outside the liability
list).  In particular a record with a blank CSV category does NOT keep a
matching existing account's category. -/
theorem claim_C3_meta_resolution_amended :
    ∀ (existingCat recCat recType : Option JStr),
      (resolveMeta existingCat recCat recType).2 = sanitizeCategory recCat ∧
      (resolveMeta existingCat recCat recType).1 =
        (normalizeType recType).getD (categoryType (sanitizeCategory recCat)) := by
  intro e rc rt
  unfold resolveMeta
  have hrc := sanitizeCategory_not_empty rc
  constructor
  · simp only [jsOrS, hrc, Bool.false_eq_true, if_false]
  · rcases ht : normalizeType rt with _ | t
    · simp only [Option.getD_none, jsOrS, hrc, Bool.false_eq_true, if_false,
        categoryType_not_empty]
    · simp [jsOrS, hrc]

/-- C3 counterexample: a record with a blank CSV category whose account
already exists with category `"cash"` resolves to `"other"`, not to the
existing `"cash"` — the claimed explicit-CSV → existing-category →
default-for-type precedence does not hold on the code. -/
theorem claim_C3_counterexample :
    (resolveMeta (some cashL) none none).2 = otherL ∧ otherL ≠ cashL := by
  decide

theorem runImport_aux (ok : ℕ → Bool) (recs : List ImportRec) : ∀ st : ImpRes,
    ((recs.foldl (importStep ok) st).imported + (recs.foldl (importStep ok) st).failed
      = st.imported + st.failed + recs.length) ∧
    ((recs.foldl (importStep ok) st).calls
      = st.calls + (recs.filter validRec).length) ∧
    ((recs.foldl (importStep ok) st).imported
      ≤ st.imported + (recs.filter validRec).length) := by
  induction recs with
  | nil => intro st; simp
  | cons r rs ih =>
    intro st
    simp only [List.foldl_cons, List.filter_cons, List.length_cons]
    by_cases hv : validRec r
    · simp only [hv, if_true, List.length_cons]
      by_cases hok : ok st.calls
      · have hstep : importStep ok st r =
            ⟨st.imported + 1, st.failed, st.calls + 1⟩ := by
          simp [importStep, hv, hok]
        rw [hstep]
        obtain ⟨h1, h2, h3⟩ := ih ⟨st.imported + 1, st.failed, st.calls + 1⟩
        dsimp only at h1 h2 h3
        refine ⟨by omega, by omega, by omega⟩
      · have hstep : importStep ok st r =
            ⟨st.imported, st.failed + 1, st.calls + 1⟩ := by
          simp [importStep, hv, hok]
        rw [hstep]
        obtain ⟨h1, h2, h3⟩ := ih ⟨st.imported, st.failed + 1, st.calls + 1⟩
        dsimp only at h1 h2 h3
        refine ⟨by omega, by omega, by omega⟩
    · simp only [hv, Bool.false_eq_true, if_false]
      have hstep : importStep ok st r =
          ⟨st.imported, st.failed + 1, st.calls⟩ := by
        simp [importStep, hv]
      rw [hstep]
      obtain ⟨h1, h2, h3⟩ := ih ⟨st.imported, st.failed + 1, st.calls⟩
      dsimp only at h1 h2 h3
      refine ⟨by omega, by omega, by omega⟩

theorem importStatus_ne (i f : ℕ) (hf : f ≠ 0) :
    importStatus i f ≠ successStatus i := by
  unfold importStatus
  rw [if_neg hf]
  intro he
  have hlen := congrArg List.length he
  simp only [List.length_append, List.length_cons] at hlen
  omega

/-- C2 (confirmed): for every network-outcome oracle and record sequence,
the import loop reports `imported + failed` equal to the number of records
submitted; the number of `addBalance` network calls equals the number of
records passing cleaning/validation (so invalid records are counted without
a network call and never imported); and a nonzero failure count always
changes the status line away from the unconditional-success form. -/
theorem claim_C2_import_counting :
    ∀ (ok : ℕ → Bool) (recs : List ImportRec),
      (runImport ok recs).imported + (runImport ok recs).failed = recs.length ∧
      (runImport ok recs).calls = (recs.filter validRec).length ∧
      (runImport ok recs).imported ≤ (recs.filter validRec).length ∧
      ((runImport ok recs).failed ≠ 0 →
        importStatus (runImport ok recs).imported (runImport ok recs).failed ≠
          successStatus (runImport ok recs).imported) := by
  intro ok recs
  obtain ⟨h1, h2, h3⟩ := runImport_aux ok recs ⟨0, 0, 0⟩
  exact ⟨by simpa using h1, by simpa using h2, by simpa using h3,
    fun hf => importStatus_ne _ _ hf⟩

/-- C2 witness: a concrete two-record import (one invalid record, one valid
record whose network call fails) evaluated through the theorem. -/
theorem claim_C2_witness :
    (runImport (fun _ => false)
        [⟨"2024-01-01".toList, [], none, none, otherL⟩,
         ⟨"2024-01-01".toList, "Checking".toList, some 1000, none, otherL⟩]).imported
      +
      (runImport (fun _ => false)
        [⟨"2024-01-01".toList, [], none, none, otherL⟩,
         ⟨"2024-01-01".toList, "Checking".toList, some 1000, none, otherL⟩]).failed = 2 ∧
    importStatus 0 2 ≠ successStatus 0 := by
  have h := claim_C2_import_counting (fun _ => false)
    [⟨"2024-01-01".toList, [], none, none, otherL⟩,
     ⟨"2024-01-01".toList, "Checking".toList, some 1000, none, otherL⟩]
  refine ⟨h.1, ?_⟩
  have hr : runImport (fun _ => false)
      [⟨"2024-01-01".toList, [], none, none, otherL⟩,
       ⟨"2024-01-01".toList, "Checking".toList, some 1000, none, otherL⟩] =
      ⟨0, 2, 1⟩ := by decide
  have h4 := h.2.2.2
  rw [hr] at h4
  exact h4 (by decide)

theorem foldl_jsMin_le (vs : List ℚ) : ∀ v : ℚ, vs.foldl jsMin v ≤ v := by
  induction vs with
  | nil => intro v; simp
  | cons x xs ih =>
    intro v
    calc (x :: xs).foldl jsMin v = xs.foldl jsMin (jsMin v x) := rfl
      _ ≤ jsMin v x := ih _
      _ ≤ v := by rw [jsMin_eq]; exact min_le_left _ _

theorem le_foldl_jsMax (vs : List ℚ) : ∀ v : ℚ, v ≤ vs.foldl jsMax v := by
  induction vs with
  | nil => intro v; simp
  | cons x xs ih =>
    intro v
    calc v ≤ jsMax v x := by rw [jsMax_eq]; exact le_max_left _ _
      _ ≤ xs.foldl jsMax (jsMax v x) := ih _
      _ = (x :: xs).foldl jsMax v := rfl

theorem ticksList_eq_map (lo hi : ℤ) (k : ℕ) (hk : hi = lo + 500000 * k) :
    ticksList lo hi =
      (List.range (k + 1)).map (fun i : ℕ => lo + 500000 * (i : ℤ)) := by
  unfold ticksList
  rw [if_neg (by omega)]
  have h1 : (hi - lo).toNat = 500000 * k := by omega
  rw [h1, Nat.mul_div_cancel_left k (by norm_num)]

theorem ticksList_props (lo hi : ℤ) (k : ℕ) (hk : hi = lo + 500000 * k) :
    (ticksList lo hi).Pairwise (· < ·) ∧
      (∀ t ∈ ticksList lo hi, lo ≤ t ∧ t ≤ hi) ∧
      (ticksList lo hi).head? = some lo ∧
      (ticksList lo hi).getLast? = some hi := by
  rw [ticksList_eq_map lo hi k hk]
  have hmono : ∀ m n : ℕ, m < n →
      lo + 500000 * (m : ℤ) < lo + 500000 * (n : ℤ) := by
    intro m n hmn; omega
  have hbnd : ∀ i : ℕ, i < k + 1 →
      lo ≤ lo + 500000 * (i : ℤ) ∧ lo + 500000 * (i : ℤ) ≤ hi := by
    intro i hilt; constructor <;> omega
  refine ⟨?_, ?_, ?_, ?_⟩
  · exact (List.pairwise_map).mpr
      ((List.pairwise_lt_range _).imp (fun h => hmono _ _ h))
  · intro t ht
    simp only [List.mem_map, List.mem_range] at ht
    obtain ⟨i, hilt, rfl⟩ := ht
    exact hbnd i hilt
  · rw [List.range_succ_eq_map]
    simp
  · rw [List.range_succ k, List.map_append, List.map_singleton,
      List.getLast?_concat]
    simp [hk]

theorem adjMinMax_le (rows : List YRow) (mn mx : ℚ)
    (h : adjMinMax rows = some (mn, mx)) : mn ≤ mx := by
  rcases hav : allValsOf rows with _ | ⟨v, vs⟩
  · simp [adjMinMax, hav] at h
  · simp only [adjMinMax, hav] at h
    have h1 : vs.foldl jsMin v ≤ v := foldl_jsMin_le vs v
    have h2 : v ≤ vs.foldl jsMax v := le_foldl_jsMax vs v
    by_cases he : vs.foldl jsMin v = vs.foldl jsMax v
    · rw [if_pos he] at h
      simp only [Option.some.injEq, Prod.mk.injEq] at h
      obtain ⟨hmn, hmx⟩ := h
      rw [← hmn, ← hmx, jsSub_eq, jsAdd_eq]
      linarith
    · rw [if_neg he] at h
      simp only [Option.some.injEq, Prod.mk.injEq] at h
      obtain ⟨hmn, hmx⟩ := h
      rw [← hmn, ← hmx]
      linarith

theorem computeY_eq_of_adj (rows : List YRow) (mn mx : ℚ)
    (h : adjMinMax rows = some (mn, mx)) :
    computeY rows = (some (floor500k mn * 500000, ceil500k mx * 500000),
      ticksList (floor500k mn * 500000) (ceil500k mx * 500000)) := by
  rcases hav : allValsOf rows with _ | ⟨v, vs⟩
  · simp [adjMinMax, hav] at h
  · simp only [adjMinMax, hav] at h
    simp only [computeY, hav]
    by_cases he : vs.foldl jsMin v = vs.foldl jsMax v
    · rw [if_pos he] at h
      simp only [Option.some.injEq, Prod.mk.injEq] at h
      rw [if_pos he, if_pos he, h.1, h.2]
    · rw [if_neg he] at h
      simp only [Option.some.injEq, Prod.mk.injEq] at h
      rw [if_neg he, if_neg he, h.1, h.2]

theorem computeY_none_of_adj (rows : List YRow)
    (h : adjMinMax rows = none) : computeY rows = (none, []) := by
  rcases hav : allValsOf rows with _ | ⟨v, vs⟩
  · simp only [computeY, hav]
  · simp only [adjMinMax, hav] at h
    by_cases he : vs.foldl jsMin v = vs.foldl jsMax v <;>
      simp [he] at h

/-- C9 (confirmed): for every input row set the axis scaler totally
evaluates (the embedding is a total function); on empty data it returns the
auto-domain placeholder with no ticks, and otherwise a domain with
`min ≤ max` together with a strictly increasing tick list whose every
element lies in `[min, max]` and whose first and last elements are exactly
the domain bounds. -/
theorem claim_C9_axis_safety :
    ∀ rows : List YRow,
      (match computeY rows with
       | (none, ticks) => ticks = []
       | (some (lo, hi), ticks) =>
         lo ≤ hi ∧ ticks.Pairwise (· < ·) ∧
           (∀ t ∈ ticks, lo ≤ t ∧ t ≤ hi) ∧
           ticks.head? = some lo ∧ ticks.getLast? = some hi) := by
  intro rows
  rcases hadj : adjMinMax rows with _ | ⟨mn, mx⟩
  · rw [computeY_none_of_adj rows hadj]
  · rw [computeY_eq_of_adj rows mn mx hadj]
    have hmnmx : mn ≤ mx := adjMinMax_le rows mn mx hadj
    have hfc : floor500k mn ≤ ceil500k mx := by
      rw [floor500k_eq, ceil500k_eq]
      calc ⌊mn / 500000⌋ ≤ ⌈mn / 500000⌉ := Int.floor_le_ceil _
        _ ≤ ⌈mx / 500000⌉ := Int.ceil_le_ceil (by gcongr)
    have hk : ceil500k mx * 500000 =
        floor500k mn * 500000 + 500000 * ((ceil500k mx - floor500k mn).toNat) := by
      omega
    obtain ⟨hp, hb, hh, hl⟩ := ticksList_props _ _ _ hk
    exact ⟨by omega, hp, hb, hh, hl⟩

/-- C9 witness: the theorem applied to a concrete singleton row set (all
values zero), whose tick-membership clause is instantiated at the middle
tick `0` of the produced list `[-500000, 0, 500000]`. -/
theorem claim_C9_witness :
    ((-500000 : ℤ) ≤ 0 ∧ (0 : ℤ) ≤ 500000) := by
  have h := claim_C9_axis_safety [⟨some 0, 0, 0, 0, 0, 0, 0⟩]
  have hc : computeY [⟨some 0, 0, 0, 0, 0, 0, 0⟩] =
      (some (-500000, 500000), [-500000, 0, 500000]) := by decide
  rw [hc] at h
  exact h.2.2.1 0 (by decide)

theorem floor_tick_bounds (q : ℚ) :
    ((⌊q / 500000⌋ * 500000 : ℚ) ≤ q ∧ q < (⌊q / 500000⌋ * 500000 : ℚ) + 500000) := by
  have h1 := Int.floor_le (q / 500000)
  have h2 := Int.lt_floor_add_one (q / 500000)
  exact ⟨by linarith, by linarith⟩

theorem ceil_tick_bounds (q : ℚ) :
    ((⌈q / 500000⌉ * 500000 : ℚ) - 500000 < q ∧ q ≤ (⌈q / 500000⌉ * 500000 : ℚ)) := by
  have h1 := Int.le_ceil (q / 500000)
  have h2 := Int.ceil_lt_add_one (q / 500000)
  exact ⟨by linarith, by linarith⟩

/-- C8 (amended): the net-worth axis has no fixed floor tick of 2,000,000
and no 5% headroom.  Whenever the scaler considers adjusted extrema
`(mn, mx)` (the min/max over netWorth values and category sums, widened by
one step only when equal), the domain is exactly
`(⌊mn/500000⌋·500000, ⌈mx/500000⌉·500000)` with ticks every 500,000 between
them: the lower bound is data-determined within one step below the minimum
(not clamped at 2,000,000), and the upper bound is within one step above
the maximum (no 5% margin added). -/
theorem claim_C8_axis_amended :
    ∀ (rows : List YRow) (mn mx : ℚ), adjMinMax rows = some (mn, mx) →
      computeY rows =
        (some (⌊mn / 500000⌋ * 500000, ⌈mx / 500000⌉ * 500000),
          ticksList (⌊mn / 500000⌋ * 500000) (⌈mx / 500000⌉ * 500000)) ∧
      ((⌊mn / 500000⌋ * 500000 : ℚ) ≤ mn ∧
        mn < (⌊mn / 500000⌋ * 500000 : ℚ) + 500000) ∧
      ((⌈mx / 500000⌉ * 500000 : ℚ) - 500000 < mx ∧
        mx ≤ (⌈mx / 500000⌉ * 500000 : ℚ)) := by
  intro rows mn mx h
  refine ⟨?_, floor_tick_bounds mn, ceil_tick_bounds mx⟩
  have hc := computeY_eq_of_adj rows mn mx h
  rw [floor500k_eq, ceil500k_eq] at hc
  exact hc

/-- C8 witness: the theorem applied to a singleton row set with netWorth
100,000 and zero category sums, whose adjusted extrema are `(0, 100000)`. -/
theorem claim_C8_witness :
    computeY [⟨some 100000, 0, 0, 0, 0, 0, 0⟩] =
      (some (⌊(0 : ℚ) / 500000⌋ * 500000, ⌈(100000 : ℚ) / 500000⌉ * 500000),
        ticksList (⌊(0 : ℚ) / 500000⌋ * 500000)
          (⌈(100000 : ℚ) / 500000⌉ * 500000)) := by
  exact (claim_C8_axis_amended [⟨some 100000, 0, 0, 0, 0, 0, 0⟩] 0 100000
    (by decide)).1

/-- C8 counterexample: a row set whose values are all zero produces the
domain `(-500000, 500000)` with ticks `[-500000, 0, 500000]` — the floor
tick is `-500000`, not the fixed 2,000,000 the claim requires, and the top
tick carries no 5% headroom above the maximum. -/
theorem claim_C8_counterexample :
    computeY [⟨some 0, 0, 0, 0, 0, 0, 0⟩] =
      (some (-500000, 500000), [-500000, 0, 500000]) ∧
    ((-500000 : ℤ) ≠ 2000000) := by
  decide

theorem mem_upsertBalRow (aid : ℕ) (date : JStr) (v : ℚ) (l : List BalRow) :
    ∀ b ∈ upsertBalRow aid date v l, b = ⟨aid, date, v⟩ ∨ b ∈ l := by
  induction l with
  | nil =>
    intro b hb
    simp only [upsertBalRow, List.mem_singleton] at hb
    exact Or.inl hb
  | cons e rest ih =>
    intro b hb
    unfold upsertBalRow at hb
    by_cases hm : (e.accountId == aid && e.date == date) = true
    · rw [if_pos hm] at hb
      rcases List.mem_cons.mp hb with h | h
      · exact Or.inl h
      · exact Or.inr (List.mem_cons_of_mem _ h)
    · rw [if_neg hm] at hb
      rcases List.mem_cons.mp hb with h | h
      · exact Or.inr (h ▸ List.mem_cons_self _ _)
      · rcases ih b h with h' | h'
        · exact Or.inl h'
        · exact Or.inr (List.mem_cons_of_mem _ h')

theorem upsertBalRow_mem_new (aid : ℕ) (date : JStr) (v : ℚ) (l : List BalRow) :
    (⟨aid, date, v⟩ : BalRow) ∈ upsertBalRow aid date v l := by
  induction l with
  | nil => simp [upsertBalRow]
  | cons e rest ih =>
    unfold upsertBalRow
    by_cases hm : (e.accountId == aid && e.date == date) = true
    · rw [if_pos hm]; exact List.mem_cons_self _ _
    · rw [if_neg hm]; exact List.mem_cons_of_mem _ ih

/-- Referential integrity of the one-user store: every balance row points at
an existing account's id. -/
def srvWF (s : Srv10) : Prop :=
  ∀ b ∈ s.balances, ∃ a ∈ s.accounts, a.id = b.accountId

/-- C10 (confirmed): a well-formed request (non-empty account name, date
present, balance non-null) first ensures the named account exists — created
with the schema default category `'other'` when absent — and only then
upserts the balance row against that account's id.  Referential integrity
(`srvWF`) is preserved by every request, and after a well-formed request
some account bearing the requested name exists whose id the upserted row
references; when no account of that name existed before, its category is
the default `'other'`. -/
theorem claim_C10_balance_account_integrity :
    ∀ (s : Srv10) (acct dt : JStr) (bal : Option ℚ),
      srvWF s →
      srvWF (postBalanceSrv acct dt bal s) ∧
        (acct.isEmpty = false → dt.isEmpty = false → bal.isNone = false →
          ∃ a ∈ (postBalanceSrv acct dt bal s).accounts,
            a.name = acct ∧
            ((∀ x ∈ s.accounts, x.name ≠ acct) → a.category = otherL) ∧
            (⟨a.id, dt, bal.getD 0⟩ : BalRow) ∈
              (postBalanceSrv acct dt bal s).balances) := by
  intro s acct dt bal hwf
  by_cases hcond : (acct.isEmpty || dt.isEmpty || bal.isNone) = true
  · have hpost : postBalanceSrv acct dt bal s = s := by
      unfold postBalanceSrv
      rw [if_pos hcond]
    rw [hpost]
    refine ⟨hwf, ?_⟩
    intro h1 h2 h3
    rw [h1, h2, h3] at hcond
    simp at hcond
  · by_cases hany : (s.accounts.any (fun a => a.name == acct)) = true
    · obtain ⟨x, hx, hpx⟩ := List.any_eq_true.mp hany
      rcases hfind : s.accounts.find? (fun a => a.name == acct) with _ | a
      · exact absurd (List.find?_eq_none.mp hfind x hx) (by simp [hpx])
      · have hpost : postBalanceSrv acct dt bal s =
            { s with balances := upsertBalRow a.id dt (bal.getD 0) s.balances } := by
          unfold postBalanceSrv
          rw [if_neg hcond, if_pos hany]
          simp only [hfind]
        have haname : a.name = acct := by
          have := List.find?_some hfind
          simpa using this
        have hamem : a ∈ s.accounts := List.mem_of_find?_eq_some hfind
        rw [hpost]
        constructor
        · intro b hb
          rcases mem_upsertBalRow a.id dt (bal.getD 0) s.balances b hb with h | h
          · exact ⟨a, hamem, by rw [h]⟩
          · exact hwf b h
        · intro h1 h2 h3
          refine ⟨a, hamem, haname, ?_, upsertBalRow_mem_new _ _ _ _⟩
          intro hnone
          exact absurd haname (hnone a hamem)
    · have hfind0 : s.accounts.find? (fun a => a.name == acct) = none := by
        rw [List.find?_eq_none]
        intro x hx
        simp only [List.any_eq_true, not_exists] at hany
        intro hpx
        exact hany x ⟨hx, hpx⟩
      have hfind : (s.accounts ++ [(⟨s.nextId, acct, otherL⟩ : Acct)]).find?
          (fun a => a.name == acct) = some ⟨s.nextId, acct, otherL⟩ := by
        rw [List.find?_append, hfind0]
        simp [List.find?]
      have hpost : postBalanceSrv acct dt bal s =
          { accounts := s.accounts ++ [⟨s.nextId, acct, otherL⟩],
            balances := upsertBalRow s.nextId dt (bal.getD 0) s.balances,
            nextId := s.nextId + 1 } := by
        unfold postBalanceSrv
        rw [if_neg hcond]
        simp only [hany, Bool.false_eq_true, if_false, hfind]
      rw [hpost]
      constructor
      · intro b hb
        rcases mem_upsertBalRow s.nextId dt (bal.getD 0) s.balances b hb with h | h
        · exact ⟨⟨s.nextId, acct, otherL⟩,
            List.mem_append_right _ (List.mem_singleton.mpr rfl), by rw [h]⟩
        · obtain ⟨a, ha, hid⟩ := hwf b h
          exact ⟨a, List.mem_append_left _ ha, hid⟩
      · intro h1 h2 h3
        exact ⟨⟨s.nextId, acct, otherL⟩,
          List.mem_append_right _ (List.mem_singleton.mpr rfl), rfl,
          fun _ => rfl, upsertBalRow_mem_new _ _ _ _⟩

/-- C10 witness: posting balance 100 for account `"Checking"` against the
empty store creates the account with id 0 and category `'other'` and stores
the row `⟨0, "2024-01-01", 100⟩` referencing it. -/
theorem claim_C10_witness :
    (⟨0, "2024-01-01".toList, 100⟩ : BalRow) ∈
      (postBalanceSrv ("Checking".toList) ("2024-01-01".toList) (some 100)
        ⟨[], [], 0⟩).balances := by
  have h := claim_C10_balance_account_integrity ⟨[], [], 0⟩ ("Checking".toList)
    ("2024-01-01".toList) (some 100)
    (by intro b hb; exact absurd hb (List.not_mem_nil b))
  obtain ⟨a, ha, hname, hcat, hbal⟩ := h.2 (by decide) (by decide) (by decide)
  have hacc : (postBalanceSrv ("Checking".toList) ("2024-01-01".toList) (some 100)
      ⟨[], [], 0⟩).accounts = [⟨0, "Checking".toList, otherL⟩] := by decide
  rw [hacc] at ha
  have ha0 : a = ⟨0, "Checking".toList, otherL⟩ := by simpa using ha
  rw [ha0] at hbal
  exact hbal

/-- No two balance rows share an (account, date) key. -/
def balKeysDistinct (bl : List (JStr × JStr × ℚ)) : Prop :=
  bl.Pairwise (fun e1 e2 => ¬(e1.1 = e2.1 ∧ e1.2.1 = e2.2.1))

theorem mem_upsertBal (n d : JStr) (v : ℚ) (l : List (JStr × JStr × ℚ)) :
    ∀ x ∈ upsertBal n d v l, (x.1 = n ∧ x.2.1 = d) ∨ x ∈ l := by
  induction l with
  | nil =>
    intro x hx
    simp only [upsertBal, List.mem_singleton] at hx
    subst hx
    exact Or.inl ⟨rfl, rfl⟩
  | cons e rest ih =>
    intro x hx
    unfold upsertBal at hx
    by_cases hm : (e.1 == n && e.2.1 == d) = true
    · rw [if_pos hm] at hx
      rcases List.mem_cons.mp hx with h | h
      · subst h; exact Or.inl ⟨rfl, rfl⟩
      · exact Or.inr (List.mem_cons_of_mem _ h)
    · rw [if_neg hm] at hx
      rcases List.mem_cons.mp hx with h | h
      · exact Or.inr (h ▸ List.mem_cons_self _ _)
      · rcases ih x h with h' | h'
        · exact Or.inl h'
        · exact Or.inr (List.mem_cons_of_mem _ h')

theorem upsertBal_pairwise (n d : JStr) (v : ℚ) (l : List (JStr × JStr × ℚ))
    (h : balKeysDistinct l) : balKeysDistinct (upsertBal n d v l) := by
  unfold balKeysDistinct at *
  induction l with
  | nil => simp [upsertBal]
  | cons e rest ih =>
    rcases List.pairwise_cons.mp h with ⟨he, hrest⟩
    unfold upsertBal
    by_cases hm : (e.1 == n && e.2.1 == d) = true
    · rw [if_pos hm]
      simp only [Bool.and_eq_true, beq_iff_eq] at hm
      refine List.pairwise_cons.mpr ⟨?_, hrest⟩
      intro y hy hky
      exact he y hy ⟨by rw [hm.1]; exact hky.1, by rw [hm.2]; exact hky.2⟩
    · rw [if_neg hm]
      refine List.pairwise_cons.mpr ⟨?_, ih hrest⟩
      intro y hy
      rcases mem_upsertBal n d v rest y hy with hk | hmem
      · intro hc
        apply hm
        simp only [Bool.and_eq_true, beq_iff_eq]
        exact ⟨by rw [hc.1, hk.1], by rw [hc.2, hk.2]⟩
      · exact he y hmem

/-- The effect of one import iteration on the account list alone. -/
def accStep (ac : List (JStr × JStr)) (r : ImportRec) : List (JStr × JStr) :=
  match cleanBal r with
  | none => ac
  | some c => if ac.any (fun a => a.1 == c.1) then ac else ac ++ [(c.1, otherL)]

/-- The effect of one import iteration on the balance list alone. -/
def balStep (bl : List (JStr × JStr × ℚ)) (r : ImportRec) :
    List (JStr × JStr × ℚ) :=
  match cleanBal r with
  | none => bl
  | some c => upsertBal c.1 c.2.1 c.2.2 bl

theorem stepOne_accounts (st : SrvState) (r : ImportRec) :
    (match cleanBal r with
      | none => st
      | some c => postBalance c.1 c.2.1 c.2.2 st).accounts =
      accStep st.accounts r := by
  rcases hc : cleanBal r with _ | c
  · simp [accStep, hc]
  · simp only [accStep, hc, postBalance, ensureAccount]
    by_cases hny : (st.accounts.any (fun a => a.1 == c.1)) = true <;>
      simp [hny]

theorem stepOne_balances (st : SrvState) (r : ImportRec) :
    (match cleanBal r with
      | none => st
      | some c => postBalance c.1 c.2.1 c.2.2 st).balances =
      balStep st.balances r := by
  rcases hc : cleanBal r with _ | c
  · simp [balStep, hc]
  · simp only [balStep, hc, postBalance, ensureAccount]
    by_cases hny : (st.accounts.any (fun a => a.1 == c.1)) = true <;>
      simp [hny]

theorem importFold_split (recs : List ImportRec) : ∀ st : SrvState,
    recs.foldl
        (fun st r =>
          match cleanBal r with
          | none => st
          | some c => postBalance c.1 c.2.1 c.2.2 st) st =
      ⟨recs.foldl accStep st.accounts, recs.foldl balStep st.balances⟩ := by
  induction recs with
  | nil => intro st; rfl
  | cons r rs ih =>
    intro st
    simp only [List.foldl_cons]
    rw [ih]
    rw [stepOne_accounts, stepOne_balances]

theorem fullImport_eq (recs : List ImportRec) (s : SrvState) :
    fullImport recs s = ⟨recs.foldl accStep s.accounts, recs.foldl balStep []⟩ := by
  unfold fullImport
  rw [importFold_split]

theorem balFold_pairwise (recs : List ImportRec) :
    ∀ bl, balKeysDistinct bl → balKeysDistinct (recs.foldl balStep bl) := by
  induction recs with
  | nil => intro bl h; exact h
  | cons r rs ih =>
    intro bl h
    simp only [List.foldl_cons]
    apply ih
    rcases hc : cleanBal r with _ | c <;> simp only [balStep, hc]
    · exact h
    · exact upsertBal_pairwise _ _ _ _ h

theorem accFold_fst_mono (recs : List ImportRec) :
    ∀ (ac : List (JStr × JStr)) (nm : JStr), nm ∈ ac.map Prod.fst →
      nm ∈ (recs.foldl accStep ac).map Prod.fst := by
  induction recs with
  | nil => intro ac nm h; exact h
  | cons r rs ih =>
    intro ac nm h
    simp only [List.foldl_cons]
    apply ih
    rcases hc : cleanBal r with _ | c <;> simp only [accStep, hc]
    · exact h
    · by_cases hny : (ac.any (fun a => a.1 == c.1)) = true
      · rw [if_pos hny]; exact h
      · rw [if_neg hny]
        simp only [List.map_append, List.mem_append]
        exact Or.inl h

theorem accStep_name (ac : List (JStr × JStr)) (r : ImportRec) (c : JStr × JStr × ℚ)
    (hc : cleanBal r = some c) : c.1 ∈ (accStep ac r).map Prod.fst := by
  simp only [accStep, hc]
  by_cases hny : (ac.any (fun a => a.1 == c.1)) = true
  · rw [if_pos hny]
    obtain ⟨a, ha, hpa⟩ := List.any_eq_true.mp hny
    simp only [beq_iff_eq] at hpa
    exact hpa ▸ List.mem_map_of_mem Prod.fst ha
  · rw [if_neg hny]
    simp

theorem accFold_names (recs : List ImportRec) :
    ∀ (ac : List (JStr × JStr)), ∀ r ∈ recs, ∀ c, cleanBal r = some c →
      c.1 ∈ ((recs.foldl accStep ac).map Prod.fst) := by
  induction recs with
  | nil => intro ac r hr; exact absurd hr (List.not_mem_nil r)
  | cons r' rs ih =>
    intro ac r hr c hc
    simp only [List.foldl_cons]
    rcases List.mem_cons.mp hr with h | h
    · subst h
      exact accFold_fst_mono rs _ _ (accStep_name ac r c hc)
    · exact ih (accStep ac r') r h c hc

theorem accStep_noop (ac : List (JStr × JStr)) (r : ImportRec)
    (h : ∀ c, cleanBal r = some c → c.1 ∈ ac.map Prod.fst) :
    accStep ac r = ac := by
  rcases hc : cleanBal r with _ | c <;> simp only [accStep, hc]
  obtain ⟨y, hy, hfst⟩ := List.mem_map.mp (h c hc)
  rw [if_pos (List.any_eq_true.mpr ⟨y, hy, by simp [hfst]⟩)]

theorem accFold_idem (recs : List ImportRec) :
    ∀ (ac : List (JStr × JStr)),
      (∀ r ∈ recs, ∀ c, cleanBal r = some c → c.1 ∈ ac.map Prod.fst) →
      recs.foldl accStep ac = ac := by
  induction recs with
  | nil => intro ac _; rfl
  | cons r rs ih =>
    intro ac h
    simp only [List.foldl_cons]
    have h0 : accStep ac r = ac :=
      accStep_noop ac r (h r (List.mem_cons_self r rs))
    rw [h0]
    exact ih ac (fun r' hr' => h r' (List.mem_cons_of_mem r hr'))

/-- C4 (confirmed): a full-replace import never leaves two balance rows with
the same (account, date) key — the per-key upsert overwrites in place — and
because the import deletes all prior balance rows first, running the same import
twice in a row leaves the server state unchanged. -/
theorem claim_C4_replace_import :
    ∀ (recs : List ImportRec) (s : SrvState),
      balKeysDistinct (fullImport recs s).balances ∧
      fullImport recs (fullImport recs s) = fullImport recs s := by
  intro recs s
  constructor
  · rw [fullImport_eq]
    exact balFold_pairwise recs [] List.Pairwise.nil
  · rw [fullImport_eq recs s, fullImport_eq]
    have hidem : recs.foldl accStep (recs.foldl accStep s.accounts) =
        recs.foldl accStep s.accounts :=
      accFold_idem recs _ (fun r hr c hc => accFold_names recs s.accounts r hr c hc)
    rw [hidem]

/-- C6 (confirmed): the date normalizer agrees exactly with the
specification's parser (`specDateParse`, written from the spec's words:
split on `/` if present else `-`, at least 3 numeric parts, `/` means
month/day/year, otherwise year/month/day, years below 100 mapped to
`2000 + year`, `null` exactly when a component is non-numeric or a
component resolves to 0); and `toIsoDate` renders the parsed triple in the
`${y}-${MM}-${DD}` template for parsable input while returning the trimmed
input unchanged — it is a total function and never throws — for unparsable
input. -/
theorem claim_C6_date_normalizer :
    ∀ s : JStr,
      parseDateParts s = specDateParse s ∧
      (parseDateParts s = none → toIsoDate s = trimStr s) ∧
      (∀ p, parseDateParts s = some p → toIsoDate s = isoRender p) := by
  intro s
  refine ⟨parseDateParts_eq_spec s, ?_, ?_⟩
  · intro h; simp [toIsoDate, h]
  · intro p h; simp [toIsoDate, h]

/-- C6 witness: the theorem's render clause applied to the concrete input
`"1/2/24"`, whose parse is `⟨2024, 1, 2⟩`. -/
theorem claim_C6_witness :
    toIsoDate ("1/2/24".toList) = isoRender ⟨2024, 1, 2⟩ := by
  exact (claim_C6_date_normalizer ("1/2/24".toList)).2.2 ⟨2024, 1, 2⟩ (by decide)

theorem sum_map_catUpdate (L : List JStr) (hnd : L.Nodup) (f : JStr → ℚ)
    (k : JStr) (b : ℚ) :
    (L.map (catUpdate f k b)).sum = (L.map f).sum + (if k ∈ L then b else 0) := by
  induction L with
  | nil => simp
  | cons c cs ih =>
    rcases List.nodup_cons.mp hnd with ⟨hc, hcs⟩
    simp only [List.map_cons, List.sum_cons]
    by_cases hck : c = k
    · subst hck
      rw [ih hcs, if_neg hc, if_pos (List.mem_cons_self c cs)]
      rw [show catUpdate f c b c = f c + b from by simp [catUpdate, jsAdd_eq]]
      ring
    · have hhead : catUpdate f k b c = f c := by simp [catUpdate, hck]
      rw [hhead, ih hcs]
      by_cases hk : k ∈ cs
      · rw [if_pos hk, if_pos (List.mem_cons_of_mem _ hk)]; ring
      · have hk' : k ∉ c :: cs := by
          simp only [List.mem_cons, not_or]
          exact ⟨fun h => hck h.symm, hk⟩
        rw [if_neg hk, if_neg hk']; ring

theorem catSums_fold (accounts : List (JStr × JStr)) (L : List JStr)
    (hnd : L.Nodup) :
    ∀ (entries : List (JStr × ℚ)) (f : JStr → ℚ),
      (L.map (entries.foldl
        (fun f e => catUpdate f (acctCategoryOf accounts e.1) e.2) f)).sum =
      (L.map f).sum +
        ((entries.filter
          (fun e => decide (acctCategoryOf accounts e.1 ∈ L))).map Prod.snd).sum := by
  intro entries
  induction entries with
  | nil => intro f; simp
  | cons e es ih =>
    intro f
    simp only [List.foldl_cons, List.filter_cons]
    rw [ih]
    rw [sum_map_catUpdate L hnd f _ e.2]
    by_cases hm : acctCategoryOf accounts e.1 ∈ L
    · rw [if_pos hm, if_pos (decide_eq_true hm)]
      simp only [List.map_cons, List.sum_cons]
      ring
    · rw [if_neg hm, if_neg (by simp [hm])]
      ring

theorem catSumRow_chartRowOf (accounts : List (JStr × JStr)) (tp : TPoint) :
    catSumRow (chartRowOf accounts tp) =
      ((tp.accounts.filter
        (fun e => decide (acctCategoryOf accounts e.1 ∈ categoriesOrder))).map
          Prod.snd).sum := by
  have h2 : catSumRow (chartRowOf accounts tp) =
      (categoriesOrder.map (catSumsFun accounts tp.accounts)).sum := by
    simp only [catSumRow, chartRowOf, categoriesOrder, List.map_cons,
      List.map_nil, List.sum_cons, List.sum_nil, jsAdd_eq]
    ring
  rw [h2]
  unfold catSumsFun
  rw [catSums_fold accounts categoriesOrder (by decide) tp.accounts (fun _ => 0)]
  simp

theorem sum_filter_partition (accounts : List (JStr × JStr))
    (entries : List (JStr × ℚ)) :
    ((entries.filter
        (fun e => decide (acctCategoryOf accounts e.1 ∈ categoriesOrder))).map
          Prod.snd).sum +
      ((entries.filter
        (fun e => !decide (acctCategoryOf accounts e.1 ∈ categoriesOrder))).map
          Prod.snd).sum =
      (entries.map Prod.snd).sum := by
  induction entries with
  | nil => simp
  | cons e es ih =>
    simp only [List.filter_cons, List.map_cons, List.sum_cons]
    by_cases hm : acctCategoryOf accounts e.1 ∈ categoriesOrder
    · rw [if_pos (decide_eq_true hm), if_neg (by simp [hm])]
      simp only [List.map_cons, List.sum_cons]
      rw [← ih]; ring
    · rw [if_neg (by simp [hm]), if_pos (by simp [hm])]
      simp only [List.map_cons, List.sum_cons]
      rw [← ih]; ring

theorem timeseries_netWorth (rows : List (JStr × JStr × ℚ)) (tp : TPoint)
    (h : tp ∈ timeseries rows) :
    tp.netWorth = (tp.accounts.map Prod.snd).sum := by
  unfold timeseries at h
  obtain ⟨tp0, _, rfl⟩ := List.mem_map.mp h
  simp [sumQ_eq]

/-- C1 (amended): the chart's per-category rollup sums account balances as
stored (liability categories are NOT negated anywhere in the pipeline), and
only the six categories `cash, stocks, crypto, retirement, property, other`
are ever copied into a chart row; so for every timeseries point the sum of
the six category sums equals `netWorth` minus the balances of accounts
whose (lower-cased) category lies outside those six — not `netWorth` itself
whenever such accounts (e.g. any liability category) are present with
nonzero balances. -/
theorem claim_C1_rollup_amended :
    ∀ (accounts : List (JStr × JStr)) (rows : List (JStr × JStr × ℚ)),
      ∀ tp ∈ timeseries rows,
        catSumRow (chartRowOf accounts tp) =
          tp.netWorth -
            ((tp.accounts.filter
              (fun e => !decide (acctCategoryOf accounts e.1 ∈ categoriesOrder))).map
                Prod.snd).sum := by
  intro accounts rows tp htp
  rw [catSumRow_chartRowOf, timeseries_netWorth rows tp htp]
  have h := sum_filter_partition accounts tp.accounts
  linarith

/-- C1 witness: the theorem applied to the concrete single-row store of the
counterexample (one "Mortgage" account with category "mortgage"). -/
theorem claim_C1_witness :
    catSumRow (chartRowOf [("Mortgage".toList, mortgageL)]
        ⟨"2024-01-01".toList, [("Mortgage".toList, 200000)], 200000⟩) =
      (⟨"2024-01-01".toList, [("Mortgage".toList, 200000)], 200000⟩ : TPoint).netWorth -
        (((⟨"2024-01-01".toList, [("Mortgage".toList, 200000)], 200000⟩ : TPoint).accounts.filter
          (fun e => !decide (acctCategoryOf [("Mortgage".toList, mortgageL)] e.1 ∈
            categoriesOrder))).map Prod.snd).sum := by
  exact claim_C1_rollup_amended [("Mortgage".toList, mortgageL)]
    [("2024-01-01".toList, "Mortgage".toList, 200000)]
    ⟨"2024-01-01".toList, [("Mortgage".toList, 200000)], 200000⟩ (by decide)

/-- C1 counterexample: a store with the single account "Mortgage" of
category "mortgage" (outside the six chart categories).  The timeseries
point for 2024-01-01 has netWorth 200000, but the chart row's category sums
total 0: the signed rollup sums do not add up to netWorth, and no negation
of liability categories takes place. -/
theorem claim_C1_counterexample :
    timeseries [("2024-01-01".toList, "Mortgage".toList, 200000)] =
      [⟨"2024-01-01".toList, [("Mortgage".toList, 200000)], 200000⟩] ∧
    catSumRow (chartRowOf [("Mortgage".toList, mortgageL)]
      ⟨"2024-01-01".toList, [("Mortgage".toList, 200000)], 200000⟩) = 0 ∧
    (0 : ℚ) ≠ 200000 := by
  decide

/-- C5 (amended): the CSV parser first drops blank lines and then REQUIRES
AT LEAST TWO remaining lines, returning no records otherwise — so a file
consisting of a single valid data line yields zero records, contrary to the
claim.  For inputs with at least two non-empty lines the claim's behaviour
holds: the header row (matched against the three lower-cased known shapes)
is skipped when detected and treated as data otherwise, and a line is
rejected exactly when it has fewer than 3 columns, its assigned
date/account/balance column (assignment by detected header shape, else by
raw column count, per `shapeCols`) is empty, or its balance does not parse
as a number after stripping `$` and `,`. -/
theorem claim_C5_csv_parser_amended :
    ∀ text : JStr,
      ((linesOf text).length < 2 → parseCsvLong text = []) ∧
      (2 ≤ (linesOf text).length →
        parseCsvLong text =
          ((linesOf text).drop
            (if hasHeader5 (headerOf ((linesOf text).getD 0 [])) ||
                hasHeader4 (headerOf ((linesOf text).getD 0 [])) ||
                hasHeader3 (headerOf ((linesOf text).getD 0 [])) then 1 else 0)).filterMap
            (lineRec (hasHeader5 (headerOf ((linesOf text).getD 0 [])))
              (hasHeader4 (headerOf ((linesOf text).getD 0 []))))) ∧
      (∀ (h5 h4 : Bool) (line : JStr),
        lineRec h5 h4 line = none ↔
          (((jsSplit ',' line).map trimStr).length < 3 ∨
            (shapeCols h5 h4 ((jsSplit ',' line).map trimStr)).1.isEmpty = true ∨
            (shapeCols h5 h4 ((jsSplit ',' line).map trimStr)).2.1.isEmpty = true ∨
            (shapeCols h5 h4 ((jsSplit ',' line).map trimStr)).2.2.2.2.isEmpty = true ∨
            jsNumber (stripMoney
              (shapeCols h5 h4 ((jsSplit ',' line).map trimStr)).2.2.2.2) = none)) := by
  intro text
  refine ⟨?_, ?_, ?_⟩
  · intro h
    simp only [parseCsvLong]
    rw [if_pos h]
  · intro h
    simp only [parseCsvLong]
    rw [if_neg (by omega)]
  · intro h5 h4 line
    simp only [lineRec]
    by_cases hlen : ((jsSplit ',' line).map trimStr).length < 3
    · rw [if_pos hlen]
      exact ⟨fun _ => Or.inl hlen, fun _ => rfl⟩
    · rw [if_neg hlen]
      by_cases he : ((shapeCols h5 h4 ((jsSplit ',' line).map trimStr)).1.isEmpty ||
          (shapeCols h5 h4 ((jsSplit ',' line).map trimStr)).2.1.isEmpty ||
          (shapeCols h5 h4 ((jsSplit ',' line).map trimStr)).2.2.2.2.isEmpty) = true
      · rw [if_pos he]
        simp only [Bool.or_eq_true] at he
        constructor
        · intro _
          rcases he with (h | h) | h
          · exact Or.inr (Or.inl h)
          · exact Or.inr (Or.inr (Or.inl h))
          · exact Or.inr (Or.inr (Or.inr (Or.inl h)))
        · intro _; rfl
      · rw [if_neg he]
        simp only [Bool.or_eq_true, not_or, Bool.not_eq_true] at he
        obtain ⟨⟨he1, he2⟩, he3⟩ := he
        rcases hn : jsNumber (stripMoney
            ((shapeCols h5 h4 ((jsSplit ',' line).map trimStr)).2.2.2.2)) with _ | bal
        · simp [hn]
        · simp only [hn]
          constructor
          · intro hcontra
            exact absurd hcontra (by simp)
          · intro hdisj
            rcases hdisj with h | h | h | h | h
            · exact absurd h hlen
            · rw [he1] at h; exact absurd h (by simp)
            · rw [he2] at h; exact absurd h (by simp)
            · rw [he3] at h; exact absurd h (by simp)
            · exact absurd h (by simp)

/-- C5 witness: the theorem's short-input clause applied to a file that is
exactly one valid data line. -/
theorem claim_C5_witness :
    parseCsvLong ("2024-01-01,Checking,1000".toList) = [] :=
  (claim_C5_csv_parser_amended ("2024-01-01,Checking,1000".toList)).1 (by decide)

/-- C5 counterexample: the single line `2024-01-01,Checking,1000` is itself
a perfectly valid data line — `lineRec` accepts it — yet `parseCsvLong`
returns no records for the one-line file, refuting the claim that such a
file yields one record. -/
theorem claim_C5_counterexample :
    parseCsvLong ("2024-01-01,Checking,1000".toList) = [] ∧
    (lineRec false false ("2024-01-01,Checking,1000".toList)).isSome = true := by
  decide

theorem digit_ne_slash {c : Char} (h : isDigitCh c = true) : c ≠ '/' := by
  rintro rfl
  exact absurd h (by decide)

theorem posStr_no_dash (q : ℚ) : ∀ c ∈ posStr q, c ≠ '-' := by
  intro c hc
  rcases posStr_all_chars q c hc with h | rfl
  · exact (digit_ne_sign h).1
  · decide

theorem pad2_chars (s : JStr) : ∀ c ∈ pad2 s, c ∈ s ∨ c = '0' := by
  intro c hc
  unfold pad2 at hc
  split at hc
  · exact Or.inl hc
  · rcases List.mem_append.mp hc with h | h
    · exact Or.inr (List.eq_of_mem_replicate h)
    · exact Or.inl h

theorem pad2_eq_self (s : JStr) (h : 2 ≤ s.length) : pad2 s = s := by
  unfold pad2
  rw [if_pos h]

theorem numStr_pos_eq (q : ℚ) (h : 0 < q) : numStr q = posStr q := by
  unfold numStr
  rw [if_neg (by linarith)]

theorem numStr_neg_eq (q : ℚ) (h : q < 0) : numStr q = '-' :: posStr (-q) := by
  unfold numStr
  rw [if_pos h]

theorem numStr_chars (q : ℚ) :
    ∀ c ∈ numStr q, isDigitCh c = true ∨ c = '.' ∨ c = '-' := by
  intro c hc
  unfold numStr at hc
  split at hc
  · rcases List.mem_cons.mp hc with rfl | hc'
    · exact Or.inr (Or.inr rfl)
    · rcases posStr_all_chars _ c hc' with h | h
      · exact Or.inl h
      · exact Or.inr (Or.inl h)
  · rcases posStr_all_chars _ c hc with h | h
    · exact Or.inl h
    · exact Or.inr (Or.inl h)

theorem pad2_numStr_chars (q : ℚ) :
    ∀ c ∈ pad2 (numStr q), isDigitCh c = true ∨ c = '.' ∨ c = '-' := by
  intro c hc
  rcases pad2_chars _ c hc with h | rfl
  · exact numStr_chars q c h
  · exact Or.inl (by decide)

theorem isoRender_chars (p : DateParts) :
    ∀ c ∈ isoRender p, isDigitCh c = true ∨ c = '.' ∨ c = '-' := by
  intro c hc
  unfold isoRender at hc
  rcases List.mem_append.mp hc with h | h
  · exact numStr_chars _ c h
  · rcases List.mem_cons.mp h with rfl | h
    · exact Or.inr (Or.inr rfl)
    · rcases List.mem_append.mp h with h | h
      · exact pad2_numStr_chars _ c h
      · rcases List.mem_cons.mp h with rfl | h
        · exact Or.inr (Or.inr rfl)
        · exact pad2_numStr_chars _ c h

theorem isoRender_no_ws (p : DateParts) : ∀ c ∈ isoRender p, isWs c = false := by
  intro c hc
  rcases isoRender_chars p c hc with h | rfl | rfl
  · exact isWs_eq_false_of_digit h
  · decide
  · decide

theorem isoRender_no_slash (p : DateParts) : ∀ c ∈ isoRender p, c ≠ '/' := by
  intro c hc
  rcases isoRender_chars p c hc with h | rfl | rfl
  · exact digit_ne_slash h
  · decide
  · decide

theorem isoRender_ne_nil (p : DateParts) : isoRender p ≠ [] := by
  unfold isoRender
  intro he
  rcases List.append_eq_nil.mp he with ⟨h1, h2⟩
  exact absurd h2 (by simp)

theorem trim_isoRender (p : DateParts) : trimStr (isoRender p) = isoRender p :=
  trimStr_eq_self _ (isoRender_no_ws p)

theorem isoRender_contains_slash (p : DateParts) :
    (isoRender p).contains '/' = false := by
  cases hct : (isoRender p).contains '/'
  · rfl
  · exfalso
    have helem : List.elem '/' (isoRender p) = true := hct
    exact isoRender_no_slash p '/' (List.mem_of_elem_eq_true helem) rfl

theorem parseDateParts_isoRender_eq (p : DateParts) :
    parseDateParts (isoRender p) =
      datePartsCore false (jsSplit '-' (isoRender p)) := by
  unfold parseDateParts
  rw [if_neg (by simp [List.isEmpty_iff, isoRender_ne_nil p])]
  rw [trim_isoRender, isoRender_contains_slash]
  simp

theorem jsNumber_nil : jsNumber [] = some 0 := by decide

theorem datePartsCore_cons (slash : Bool) (p0 p1 p2 : JStr) (tail : List JStr) :
    datePartsCore slash (p0 :: p1 :: p2 :: tail) =
      match jsNumber p0, jsNumber p1, jsNumber p2 with
      | some a, some b, some c => dateFromABC slash a b c
      | _, _, _ => none := rfl

theorem dateFromABC_hyphen_big (y m d : ℚ) (hy : 100 ≤ y) (hm : m ≠ 0)
    (hd : d ≠ 0) : dateFromABC false y m d = some ⟨y, m, d⟩ := by
  simp only [dateFromABC, Bool.false_eq_true, if_false]
  rw [if_neg (not_lt.mpr hy)]
  rw [if_neg (by push_neg; exact ⟨by linarith, hm, hd⟩)]

theorem dateFromABC_zero_m (y d : ℚ) : dateFromABC false y 0 d = none := by
  simp [dateFromABC]

theorem dateFromABC_zero_d (y m : ℚ) : dateFromABC false y m 0 = none := by
  simp [dateFromABC]

theorem toIsoDate_isoRender (p : DateParts) (hy : 100 ≤ p.y)
    (hm : p.m ≠ 0) (hd : p.d ≠ 0)
    (hky : ∃ L, p.y.den ∣ 10 ^ L) (hkm : ∃ L, p.m.den ∣ 10 ^ L)
    (hkd : ∃ L, p.d.den ∣ 10 ^ L) :
    toIsoDate (isoRender p) = isoRender p := by
  have hy0 : (0 : ℚ) < p.y := by linarith
  have hyS : numStr p.y = posStr p.y := numStr_pos_eq _ hy0
  obtain ⟨Ly, hLy⟩ := hky
  obtain ⟨ky, hkyy⟩ := findK_isSome p.y.pos hLy
  have hyNum : jsNumber (posStr p.y) = some p.y := jsNumber_posStr _ hy0 hkyy
  have hRsplit0 : jsSplit '-' (isoRender p) =
      posStr p.y :: jsSplit '-' (pad2 (numStr p.m) ++ '-' :: pad2 (numStr p.d)) := by
    unfold isoRender
    rw [hyS]
    exact jsSplit_append '-' _ _ (posStr_no_dash _)
  rcases lt_or_gt_of_ne hm with hmneg | hmpos
  · have hmS : numStr p.m = '-' :: posStr (-p.m) := numStr_neg_eq _ hmneg
    have hmlen : 2 ≤ (numStr p.m).length := by
      rw [hmS]
      simp only [List.length_cons]
      have h1 : (posStr (-p.m)).length ≠ 0 := by
        simpa using posStr_ne_nil (-p.m)
      omega
    have hpad : pad2 (numStr p.m) = '-' :: posStr (-p.m) := by
      rw [pad2_eq_self _ hmlen, hmS]
    have hsplit : jsSplit '-' (pad2 (numStr p.m) ++ '-' :: pad2 (numStr p.d)) =
        [] :: posStr (-p.m) :: jsSplit '-' (pad2 (numStr p.d)) := by
      rw [hpad, List.cons_append, jsSplit_cons_sep,
        jsSplit_append '-' _ _ (posStr_no_dash _)]
    have hparse : parseDateParts (isoRender p) = none := by
      rw [parseDateParts_isoRender_eq, hRsplit0, hsplit, datePartsCore_cons]
      rw [hyNum, jsNumber_nil]
      rcases h3 : jsNumber (posStr (-p.m)) with _ | v
      · rfl
      · exact dateFromABC_zero_m p.y v
    simp only [toIsoDate, hparse]
    exact trim_isoRender p
  · obtain ⟨Lm, hLm⟩ := hkm
    obtain ⟨km, hkmm⟩ := findK_isSome p.m.pos hLm
    have hmS : numStr p.m = posStr p.m := numStr_pos_eq _ hmpos
    have hmNum : jsNumber (pad2 (posStr p.m)) = some p.m :=
      jsNumber_pad2_posStr _ hmpos hkmm
    have hmnd : ∀ c ∈ pad2 (posStr p.m), c ≠ '-' := by
      intro c hc
      rcases pad2_chars _ c hc with h | rfl
      · exact posStr_no_dash _ c h
      · decide
    rw [hmS] at hRsplit0
    rcases lt_or_gt_of_ne hd with hdneg | hdpos
    · have hdS : numStr p.d = '-' :: posStr (-p.d) := numStr_neg_eq _ hdneg
      have hdlen : 2 ≤ (numStr p.d).length := by
        rw [hdS]
        simp only [List.length_cons]
        have h1 : (posStr (-p.d)).length ≠ 0 := by
          simpa using posStr_ne_nil (-p.d)
        omega
      have hpadD : pad2 (numStr p.d) = '-' :: posStr (-p.d) := by
        rw [pad2_eq_self _ hdlen, hdS]
      have hsplit : jsSplit '-' (pad2 (posStr p.m) ++ '-' :: pad2 (numStr p.d)) =
          pad2 (posStr p.m) :: [] :: jsSplit '-' (posStr (-p.d)) := by
        rw [hpadD, jsSplit_append '-' _ _ hmnd, jsSplit_cons_sep]
      have hparse : parseDateParts (isoRender p) = none := by
        rw [parseDateParts_isoRender_eq, hRsplit0, hsplit, datePartsCore_cons]
        rw [hyNum, hmNum, jsNumber_nil]
        exact dateFromABC_zero_d p.y p.m
      simp only [toIsoDate, hparse]
      exact trim_isoRender p
    · obtain ⟨Ld, hLd⟩ := hkd
      obtain ⟨kd, hkdd⟩ := findK_isSome p.d.pos hLd
      have hdS : numStr p.d = posStr p.d := numStr_pos_eq _ hdpos
      have hdNum : jsNumber (pad2 (posStr p.d)) = some p.d :=
        jsNumber_pad2_posStr _ hdpos hkdd
      have hdnd : ∀ c ∈ pad2 (posStr p.d), c ≠ '-' := by
        intro c hc
        rcases pad2_chars _ c hc with h | rfl
        · exact posStr_no_dash _ c h
        · decide
      rw [hdS] at hRsplit0
      have hsplit : jsSplit '-' (pad2 (posStr p.m) ++ '-' :: pad2 (posStr p.d)) =
          [pad2 (posStr p.m), pad2 (posStr p.d)] := by
        rw [jsSplit_append '-' _ _ hmnd, jsSplit_no_sep '-' _ hdnd]
      have hparse : parseDateParts (isoRender p) = some p := by
        rw [parseDateParts_isoRender_eq, hRsplit0, hsplit, datePartsCore_cons]
        rw [hyNum, hmNum, hdNum]
        exact dateFromABC_hyphen_big p.y p.m p.d hy hm hd
      simp only [toIsoDate, hparse]

theorem jsNumber_den_pow10 {s : JStr} {q : ℚ} (h : jsNumber s = some q) :
    ∃ L, q.den ∣ 10 ^ L := by
  obtain ⟨k, hk⟩ := jsNumber_findK h
  exact ⟨k, Nat.dvd_of_mod_eq_zero (findK_spec hk)⟩

theorem den_add_2000_pow10 {q : ℚ} {L : ℕ} (h : q.den ∣ 10 ^ L) :
    ((2000 : ℚ) + q).den ∣ 10 ^ L := by
  have hd := Rat.add_den_dvd (2000 : ℚ) q
  have h1 : ((2000 : ℚ)).den = 1 := rfl
  rw [h1, one_mul] at hd
  exact hd.trans h

theorem dateFromABC_facts {slash : Bool} {a b c : ℚ} {p : DateParts}
    (h : dateFromABC slash a b c = some p) :
    p.y ≠ 0 ∧ p.m ≠ 0 ∧ p.d ≠ 0 ∧
      p.m = (if slash then a else b) ∧ p.d = (if slash then b else c) ∧
      (p.y = (if slash then c else a) ∨
        p.y = 2000 + (if slash then c else a)) := by
  cases slash <;>
    simp only [dateFromABC, Bool.false_eq_true, if_false, if_true] at h ⊢
  case false =>
    by_cases hfal : ((if a < 100 then jsAdd 2000 a else a) = 0 ∨ b = 0 ∨ c = 0)
    · rw [if_pos hfal] at h
      exact absurd h (by simp)
    · rw [if_neg hfal] at h
      push_neg at hfal
      injection h with h'
      subst h'
      refine ⟨hfal.1, hfal.2.1, hfal.2.2, rfl, rfl, ?_⟩
      dsimp only
      by_cases hylt : a < 100
      · right
        rw [if_pos hylt, jsAdd_eq]
      · left
        rw [if_neg hylt]
  case true =>
    by_cases hfal : ((if c < 100 then jsAdd 2000 c else c) = 0 ∨ a = 0 ∨ b = 0)
    · rw [if_pos hfal] at h
      exact absurd h (by simp)
    · rw [if_neg hfal] at h
      push_neg at hfal
      injection h with h'
      subst h'
      refine ⟨hfal.1, hfal.2.1, hfal.2.2, rfl, rfl, ?_⟩
      dsimp only
      by_cases hylt : c < 100
      · right
        rw [if_pos hylt, jsAdd_eq]
      · left
        rw [if_neg hylt]

theorem parseDateParts_facts {s : JStr} {p : DateParts}
    (h : parseDateParts s = some p) :
    p.y ≠ 0 ∧ p.m ≠ 0 ∧ p.d ≠ 0 ∧
      (∃ L, p.y.den ∣ 10 ^ L) ∧ (∃ L, p.m.den ∣ 10 ^ L) ∧
      (∃ L, p.d.den ∣ 10 ^ L) := by
  unfold parseDateParts at h
  split at h
  · exact absurd h (by simp)
  · unfold datePartsCore at h
    split at h
    · next p0 p1 p2 tail =>
      split at h
      · next a b c ha hb hc =>
        obtain ⟨hy0, hm0, hd0, hmEq, hdEq, hyOr⟩ := dateFromABC_facts h
        have hda := jsNumber_den_pow10 ha
        have hdb := jsNumber_den_pow10 hb
        have hdc := jsNumber_den_pow10 hc
        refine ⟨hy0, hm0, hd0, ?_, ?_, ?_⟩
        · rcases hyOr with hye | hye <;>
            cases hsl : (trimStr s).contains '/' <;>
            rw [hsl] at hye <;> simp only [Bool.false_eq_true, if_false, if_true] at hye <;>
            rw [hye]
          · exact hda
          · exact hdc
          · obtain ⟨L, hL⟩ := hda
            exact ⟨L, den_add_2000_pow10 hL⟩
          · obtain ⟨L, hL⟩ := hdc
            exact ⟨L, den_add_2000_pow10 hL⟩
        · cases hsl : (trimStr s).contains '/' <;>
            rw [hsl] at hmEq <;>
            simp only [Bool.false_eq_true, if_false, if_true] at hmEq <;> rw [hmEq]
          · exact hdb
          · exact hda
        · cases hsl : (trimStr s).contains '/' <;>
            rw [hsl] at hdEq <;>
            simp only [Bool.false_eq_true, if_false, if_true] at hdEq <;> rw [hdEq]
          · exact hdc
          · exact hdb
      · exact absurd h (by simp)
    · exact absurd h (by simp)

theorem parse_trim (s : JStr) (h : trimStr s ≠ []) :
    parseDateParts (trimStr s) = parseDateParts s := by
  have hsne : s ≠ [] := by
    intro he
    subst he
    exact h rfl
  have hc1 : ¬((trimStr s).isEmpty = true) := by
    simp [List.isEmpty_iff, h]
  have hc2 : ¬(s.isEmpty = true) := by
    simp [List.isEmpty_iff, hsne]
  unfold parseDateParts
  rw [if_neg hc1, if_neg hc2, trimStr_idem]

/-- C7 (amended): canonicalization is idempotent on every string the parser
rejects, and on every parsable string whose resolved year is at least 100 —
this covers all real calendar inputs with 2- or 4-digit years, but NOT
adversarial inputs whose mapped year lands in (0, 100) or below 0 (such as
month 5, day 6, year -1950 in slash form), for which the rendered year
re-enters the `+2000` remapping on re-parse; and the timestamp map is
strictly monotonic with
respect to calendar order on valid dates. -/
theorem claim_C7_canonicalize_amended :
    (∀ s : JStr,
      (parseDateParts s = none → toIsoDate (toIsoDate s) = toIsoDate s) ∧
      (∀ p, parseDateParts s = some p → 100 ≤ p.y →
        toIsoDate (toIsoDate s) = toIsoDate s)) ∧
    (∀ y1 m1 d1 y2 m2 d2 : ℤ, validYMD y1 m1 d1 → validYMD y2 m2 d2 →
      dateLtYMD y1 m1 d1 y2 m2 d2 →
      dateUTCms y1 m1 d1 < dateUTCms y2 m2 d2) := by
  constructor
  · intro s
    constructor
    · intro h
      have hts : toIsoDate s = trimStr s := by simp [toIsoDate, h]
      rw [hts]
      by_cases htriv : trimStr s = []
      · rw [htriv]
        decide
      · have hpt : parseDateParts (trimStr s) = parseDateParts s :=
          parse_trim s htriv
        simp [toIsoDate, hpt, h, trimStr_idem]
    · intro p hp hy
      have hts : toIsoDate s = isoRender p := by simp [toIsoDate, hp]
      rw [hts]
      obtain ⟨hy0, hm0, hd0, hky, hkm, hkd⟩ := parseDateParts_facts hp
      exact toIsoDate_isoRender p hy hm0 hd0 hky hkm hkd
  · intro y1 m1 d1 y2 m2 d2 hv1 hv2 hlt
    unfold dateUTCms
    have := civilFromEpoch_lt hv1 hv2 hlt
    omega

/-- C7 witness: the idempotence clause of the theorem applied to the input
`"1/2/24"`, whose parse `⟨2024, 1, 2⟩` has year at least 100. -/
theorem claim_C7_witness :
    toIsoDate (toIsoDate ("1/2/24".toList)) = toIsoDate ("1/2/24".toList) :=
  (claim_C7_canonicalize_amended.1 ("1/2/24".toList)).2 ⟨2024, 1, 2⟩
    (by decide) (by decide)

/-- C7 counterexample: canonicalization is not idempotent as claimed: the
slash-form input with month 5, day 6, year -1950 parses (year
`2000 + (-1950) = 50`) and canonicalizes to `"50-05-06"`, but
canonicalizing again re-parses that rendering and maps year 50 to 2050,
yielding `"2050-05-06"`. -/
theorem claim_C7_counterexample :
    toIsoDate ("5/6/-1950".toList) = "50-05-06".toList ∧
    toIsoDate (toIsoDate ("5/6/-1950".toList)) = "2050-05-06".toList ∧
    toIsoDate (toIsoDate ("5/6/-1950".toList)) ≠ toIsoDate ("5/6/-1950".toList) := by
  decide
